import Mathlib

/-!
Verification of the `tree-sitter-thorn` repository against its specification.

The repository's only source file is `bindings/node/binding.cc`, a 17-line
N-API adapter: its `Init` function sets the export `"name"` to the string
`"thorn"`, calls the extern `tree_sitter_thorn()` once, wraps the returned
pointer in an `External` stored under the export `"language"`, and returns
the exports object.  We embed that function shallowly
(`ThornBinding` namespace).

The specification additionally describes the parser engine the binding
forwards to (lexer, table-driven parser, tree builder, incremental re-parse
engine, error recovery, table loader).  That engine is not part of the
supplied sources, so it is modelled from the spec's own words
(`ThornEngine` namespace); each such definition's doc comment says so.
-/

namespace ThornBinding

/-- A value of the host embedding's object model, as used by `binding.cc`:
`Napi::String` values and `Napi::External` values (the pointer is modelled
as a `Nat` address; `0` is the null pointer). -/
inductive NapiValue where
  | str (s : String)
  | external (addr : Nat)
deriving DecidableEq

/-- The host environment handed to `Init`.  The extern C function
`tree_sitter_thorn()` is process state outside the binding; we model its
behaviour as part of the environment: `thornResult i` is the pointer the
`i`-th call (0-based) to `tree_sitter_thorn()` returns in this process. -/
structure Env where
  thornResult : Nat → Nat

/-- An exports object: a property map from names to values. -/
def Exports : Type := List (String × NapiValue)

/-- Property write `exports[k] = v` (overwrite if present, add otherwise). -/
def setProp (ex : Exports) (k : String) (v : NapiValue) : Exports :=
  match ex with
  | [] => [(k, v)]
  | (k0, v0) :: rest =>
      if k0 = k then (k0, v) :: rest else (k0, v0) :: setProp rest k v

/-- Property read `exports[k]`. -/
def getProp (ex : Exports) (k : String) : Option NapiValue :=
  match ex with
  | [] => none
  | (k0, v0) :: rest => if k0 = k then some v0 else getProp rest k

/-- Shallow embedding of `Init` from `bindings/node/binding.cc`, lines 9-14,
instrumented with a counter of calls to the extern `tree_sitter_thorn()`:
`calls` is the number of such calls made before this invocation, and the
second component of the result is the count afterwards.
Line 10: `exports["name"] = Napi::String::New(env, "thorn")`;
line 11: `auto language = reinterpret_cast<void *>(tree_sitter_thorn())`;
line 12: `exports["language"] = Napi::External<void>::New(env, language)`;
line 13: `return exports`. -/
def InitAux (env : Env) (exports : Exports) (calls : Nat) : Exports × Nat :=
  let ex1 := setProp exports "name" (NapiValue.str "thorn")
  let language := env.thornResult calls
  let calls1 := calls + 1
  let ex2 := setProp ex1 "language" (NapiValue.external language)
  (ex2, calls1)

/-- `Init` as registered by `NODE_API_MODULE` (line 16): the module's sole
entry point, invoked once at module load, when no extern call has yet been
made by the binding. -/
def Init (env : Env) (exports : Exports) : Exports × Nat :=
  InitAux env exports 0

theorem getProp_setProp_same (ex : Exports) (k : String) (v : NapiValue) :
    getProp (setProp ex k v) k = some v := by
  induction ex with
  | nil => simp [setProp, getProp]
  | cons p rest ih =>
      obtain ⟨k0, v0⟩ := p
      by_cases h : k0 = k <;> simp [setProp, getProp, h, ih]

theorem getProp_setProp_other (ex : Exports) (k k2 : String) (v : NapiValue)
    (h : k2 ≠ k) : getProp (setProp ex k v) k2 = getProp ex k2 := by
  have h2 : ¬ k = k2 := fun he => h he.symm
  induction ex with
  | nil => simp [setProp, getProp, h2]
  | cons p rest ih =>
      obtain ⟨k0, v0⟩ := p
      by_cases hk : k0 = k
      · subst hk
        simp [setProp, getProp, h2]
      · by_cases hk2 : k0 = k2
        · subst hk2
          simp [setProp, getProp, hk]
        · simp [setProp, getProp, hk, hk2, ih]

end ThornBinding

namespace ThornEngine

/-- Byte span: the half-open interval `[startB, endB)` of input bytes. -/
structure Span where
  startB : Nat
  endB : Nat
deriving DecidableEq

/-- A lexical token: terminal symbol kind plus its byte span. -/
structure Token where
  kind : String
  span : Span
deriving DecidableEq

/-- Modelled from the spec: byte class used by the Lexer/Scanner for
identifier/keyword runs (ASCII letters and underscore). -/
def isAlphaB (b : Nat) : Bool :=
  decide ((65 ≤ b ∧ b ≤ 90) ∨ (97 ≤ b ∧ b ≤ 122) ∨ b = 95)

/-- Modelled from the spec: byte class for number runs (ASCII digits). -/
def isDigitB (b : Nat) : Bool :=
  decide (48 ≤ b ∧ b ≤ 57)

/-- Modelled from the spec: byte class for whitespace. -/
def isSpaceB (b : Nat) : Bool :=
  decide (b = 32 ∨ b = 9 ∨ b = 10 ∨ b = 13)

/-- The keyword bytes `l`, `e`, `t`. -/
def letBytes : List Nat := [108, 101, 116]

/-- Kind of a maximal letter run: the keyword `let` or an identifier. -/
def alphaKind (lex : List Nat) : String :=
  if lex = letBytes then "let" else "identifier"

/-- Modelled from the spec (§4.1 Lexer/Scanner, absent from the supplied
sources): tokenize the remaining bytes `s`, which start at absolute byte
offset `i`.  Maximal letter runs become `let`/`identifier` tokens, maximal
digit runs become `number` tokens, and every other byte becomes a
single-byte token (`equals`, `space`, or — for an unrecognized byte — an
`unknown` leaf token, the spec's LexError recovery).  `fuel` bounds the
recursion; `s.length` suffices since every step consumes at least one
byte. -/
def tokenizeAux : Nat → List Nat → Nat → List Token
  | 0, _, _ => []
  | _ + 1, [], _ => []
  | fuel + 1, b :: rest, i =>
      if isAlphaB b then
        let lex := b :: rest.takeWhile isAlphaB
        Token.mk (alphaKind lex) (Span.mk i (i + lex.length)) ::
          tokenizeAux fuel (rest.dropWhile isAlphaB) (i + lex.length)
      else if isDigitB b then
        let n := 1 + (rest.takeWhile isDigitB).length
        Token.mk "number" (Span.mk i (i + n)) ::
          tokenizeAux fuel (rest.dropWhile isDigitB) (i + n)
      else
        Token.mk (if b = 61 then "equals" else if isSpaceB b then "space" else "unknown")
            (Span.mk i (i + 1)) ::
          tokenizeAux fuel rest (i + 1)

/-- Modelled from the spec: the Lexer run on a whole input. -/
def tokenize (s : List Nat) : List Token :=
  tokenizeAux s.length s 0

/-- `TokensTile i j ts`: the spans of `ts` exactly tile the byte interval
`[i, j)` — consecutive, gap-free, overlap-free, each non-empty. -/
def TokensTile : Nat → Nat → List Token → Prop
  | i, j, [] => i = j
  | i, j, t :: ts => t.span.startB = i ∧ i < t.span.endB ∧ TokensTile t.span.endB j ts

/-- End offset of a token list that starts at offset `i`. -/
def tokEnd (i : Nat) : List Token → Nat
  | [] => i
  | t :: ts => tokEnd t.span.endB ts

theorem tokenizeAux_fuel_eq :
    ∀ f1 f2 s i, s.length ≤ f1 → s.length ≤ f2 →
      tokenizeAux f1 s i = tokenizeAux f2 s i := by
  intro f1
  induction f1 with
  | zero =>
      intro f2 s i h1 _
      have : s = [] := List.eq_nil_of_length_eq_zero (Nat.le_zero.mp h1)
      subst this
      cases f2 <;> simp [tokenizeAux]
  | succ f ih =>
      intro f2 s i h1 h2
      cases s with
      | nil => cases f2 <;> simp [tokenizeAux]
      | cons b rest =>
          cases f2 with
          | zero => simp at h2
          | succ f2' =>
              have hr : rest.length ≤ f := Nat.lt_succ_iff.mp h1
              have hr2 : rest.length ≤ f2' := Nat.lt_succ_iff.mp h2
              have hda : (rest.dropWhile isAlphaB).length ≤ rest.length :=
                List.Sublist.length_le (List.dropWhile_sublist _)
              have hdd : (rest.dropWhile isDigitB).length ≤ rest.length :=
                List.Sublist.length_le (List.dropWhile_sublist _)
              simp only [tokenizeAux]
              by_cases ha : isAlphaB b
              · simp only [ha, if_true]
                rw [ih f2' _ _ (le_trans hda hr) (le_trans hda hr2)]
              · rw [Bool.not_eq_true] at ha
                by_cases hd : isDigitB b
                · simp only [ha, hd, if_true, Bool.false_eq_true, if_false]
                  rw [ih f2' _ _ (le_trans hdd hr) (le_trans hdd hr2)]
                · rw [Bool.not_eq_true] at hd
                  simp only [ha, hd, Bool.false_eq_true, if_false]
                  rw [ih f2' _ _ hr hr2]

theorem TokensTile_cons (i j : Nat) (t : Token) (ts : List Token) :
    TokensTile i j (t :: ts) ↔
      (t.span.startB = i ∧ i < t.span.endB ∧ TokensTile t.span.endB j ts) :=
  Iff.rfl

theorem TokensTile_nil (i j : Nat) : TokensTile i j ([] : List Token) ↔ i = j :=
  Iff.rfl

theorem takeWhile_dropWhile_length (p : Nat → Bool) (l : List Nat) :
    (l.takeWhile p).length + (l.dropWhile p).length = l.length := by
  rw [← List.length_append, List.takeWhile_append_dropWhile]

theorem tokenizeAux_tile :
    ∀ f s i, s.length ≤ f →
      TokensTile i (i + s.length) (tokenizeAux f s i) := by
  intro f
  induction f with
  | zero =>
      intro s i h
      have : s = [] := List.eq_nil_of_length_eq_zero (Nat.le_zero.mp h)
      subst this
      simp [tokenizeAux, TokensTile]
  | succ f ih =>
      intro s i h
      cases s with
      | nil => simp [tokenizeAux, TokensTile]
      | cons b rest =>
          have hr : rest.length ≤ f := Nat.lt_succ_iff.mp h
          simp only [tokenizeAux]
          by_cases ha : isAlphaB b
          · simp only [ha, if_true]
            rw [TokensTile_cons]
            refine ⟨rfl, by simp only [List.length_cons]; omega, ?_⟩
            have h3 := ih (rest.dropWhile isAlphaB) (i + (b :: rest.takeWhile isAlphaB).length)
              (le_trans (List.Sublist.length_le (List.dropWhile_sublist _)) hr)
            have harith := takeWhile_dropWhile_length isAlphaB rest
            have he : i + (b :: rest).length =
                i + (b :: rest.takeWhile isAlphaB).length + (rest.dropWhile isAlphaB).length := by
              simp only [List.length_cons]
              omega
            rw [he]
            exact h3
          · rw [Bool.not_eq_true] at ha
            by_cases hd : isDigitB b
            · simp only [ha, hd, if_true, Bool.false_eq_true, if_false]
              rw [TokensTile_cons]
              refine ⟨rfl, by show i < i + (1 + (rest.takeWhile isDigitB).length); omega, ?_⟩
              have h3 := ih (rest.dropWhile isDigitB) (i + (1 + (rest.takeWhile isDigitB).length))
                (le_trans (List.Sublist.length_le (List.dropWhile_sublist _)) hr)
              have harith := takeWhile_dropWhile_length isDigitB rest
              have he : i + (b :: rest).length =
                  i + (1 + (rest.takeWhile isDigitB).length) + (rest.dropWhile isDigitB).length := by
                simp only [List.length_cons]
                omega
              rw [he]
              exact h3
            · rw [Bool.not_eq_true] at hd
              simp only [ha, hd, Bool.false_eq_true, if_false]
              rw [TokensTile_cons]
              refine ⟨rfl, by show i < i + 1; omega, ?_⟩
              have h3 := ih rest (i + 1) hr
              have he : i + (b :: rest).length = i + 1 + rest.length := by
                simp only [List.length_cons]
                omega
              rw [he]
              exact h3

/-- The Lexer's output tiles the whole input: totality of scanning. -/
theorem tokenize_tile (s : List Nat) : TokensTile 0 s.length (tokenize s) := by
  have := tokenizeAux_tile s.length s 0 (le_refl _)
  simpa using this

/-- Apply a position map to a token's span (kind unchanged). -/
def mapTokSpan (f : Nat → Nat) (t : Token) : Token :=
  Token.mk t.kind (Span.mk (f t.span.startB) (f t.span.endB))

/-- Translate a token span by `d` bytes. -/
def shiftTok (d : Nat) : Token → Token :=
  mapTokSpan (· + d)

theorem tokenizeAux_add :
    ∀ f s i d, tokenizeAux f s (i + d) = (tokenizeAux f s i).map (shiftTok d) := by
  intro f
  induction f with
  | zero => intro s i d; simp [tokenizeAux]
  | succ f ih =>
      intro s i d
      cases s with
      | nil => simp [tokenizeAux]
      | cons b rest =>
          simp only [tokenizeAux]
          by_cases ha : isAlphaB b
          · simp only [ha, if_true, List.map_cons]
            refine congrArg₂ _ (by simp [shiftTok, mapTokSpan, Nat.add_right_comm]) ?_
            have he : i + d + (b :: rest.takeWhile isAlphaB).length =
                (i + (b :: rest.takeWhile isAlphaB).length) + d := by omega
            rw [he, ih]
          · rw [Bool.not_eq_true] at ha
            by_cases hd : isDigitB b
            · simp only [ha, hd, if_true, Bool.false_eq_true, if_false, List.map_cons]
              refine congrArg₂ _ (by simp [shiftTok, mapTokSpan, Nat.add_right_comm]) ?_
              have he : i + d + (1 + (rest.takeWhile isDigitB).length) =
                  (i + (1 + (rest.takeWhile isDigitB).length)) + d := by omega
              rw [he, ih]
            · rw [Bool.not_eq_true] at hd
              simp only [ha, hd, Bool.false_eq_true, if_false, List.map_cons]
              refine congrArg₂ _ (by simp [shiftTok, mapTokSpan, Nat.add_right_comm]) ?_
              have he : i + d + 1 = (i + 1) + d := by omega
              rw [he, ih]

theorem tokenizeAux_offset (f : Nat) (s : List Nat) (d : Nat) :
    tokenizeAux f s d = (tokenizeAux f s 0).map (shiftTok d) := by
  have := tokenizeAux_add f s 0 d
  simpa using this

/-- Two bytes continue the same maximal lexical run: both letters or both
digits. -/
def classRun (x y : Nat) : Bool :=
  (isAlphaB x && isAlphaB y) || (isDigitB x && isDigitB y)

/-- The byte boundary between `a` and `b` does not fall inside a lexical
run: safe place to split the input for independent scanning. -/
def safeJoinB (a b : List Nat) : Bool :=
  match a.getLast?, b.head? with
  | some x, some y => ! classRun x y
  | _, _ => true

theorem safeJoinB_nil_left (b : List Nat) : safeJoinB [] b = true := by
  cases b <;> rfl

theorem safeJoinB_nil_right (a : List Nat) : safeJoinB a [] = true := by
  unfold safeJoinB
  cases a.getLast? <;> rfl

theorem safeJoinB_of_getLast?_eq {a a2 b : List Nat}
    (h : a.getLast? = a2.getLast?) : safeJoinB a b = safeJoinB a2 b := by
  unfold safeJoinB
  rw [h]

theorem safeJoin_cons {x : Nat} {a2 b : List Nat}
    (hsafe : safeJoinB (x :: a2) b = true) : safeJoinB a2 b = true := by
  cases a2 with
  | nil => exact safeJoinB_nil_left b
  | cons y a3 =>
      have h : (x :: y :: a3).getLast? = (y :: a3).getLast? := by
        rw [show x :: y :: a3 = [x] ++ (y :: a3) from rfl, List.getLast?_append]
        obtain ⟨z, hz⟩ : ∃ z, (y :: a3).getLast? = some z :=
          ⟨_, List.getLast?_eq_getLast _ (List.cons_ne_nil y a3)⟩
        rw [hz]
        rfl
      rw [safeJoinB_of_getLast?_eq h] at hsafe
      exact hsafe

theorem safeJoin_dropWhile {p : Nat → Bool} {x : Nat} {a2 b : List Nat}
    (hne : a2.dropWhile p ≠ []) (hsafe : safeJoinB (x :: a2) b = true) :
    safeJoinB (a2.dropWhile p) b = true := by
  have ha2 : a2 ≠ [] := by
    intro h
    subst h
    simp at hne
  have h1 : (x :: a2).getLast? = a2.getLast? := by
    rw [show x :: a2 = [x] ++ a2 from rfl, List.getLast?_append]
    cases h2 : a2.getLast? with
    | none => exact absurd (List.getLast?_eq_none_iff.mp h2) ha2
    | some y => simp
  have h2 : a2.getLast? = (a2.dropWhile p).getLast? := by
    conv_lhs => rw [← List.takeWhile_append_dropWhile (p := p) (l := a2)]
    rw [List.getLast?_append]
    cases h3 : (a2.dropWhile p).getLast? with
    | none => exact absurd (List.getLast?_eq_none_iff.mp h3) hne
    | some y => simp
  rw [safeJoinB_of_getLast?_eq (h1.trans h2)] at hsafe
  exact hsafe

theorem run_stops (p : Nat → Bool) (a2 b : List Nat) (hne : a2.dropWhile p ≠ []) :
    (a2 ++ b).takeWhile p = a2.takeWhile p ∧
      (a2 ++ b).dropWhile p = a2.dropWhile p ++ b := by
  constructor
  · rw [List.takeWhile_append]
    have hlen : (a2.takeWhile p).length ≠ a2.length := by
      have := takeWhile_dropWhile_length p a2
      have hpos : 0 < (a2.dropWhile p).length := List.length_pos.mpr hne
      omega
    rw [if_neg hlen]
  · rw [List.dropWhile_append]
    have : (a2.dropWhile p).isEmpty = false := by
      cases h : a2.dropWhile p with
      | nil => exact absurd h hne
      | cons _ _ => rfl
    rw [this]
    simp

theorem run_crosses (p : Nat → Bool)
    (hp : ∀ u v, p u = true → p v = true → classRun u v = true)
    (x : Nat) (a2 b : List Nat) (hx : p x = true) (hall : a2.dropWhile p = [])
    (hsafe : safeJoinB (x :: a2) b = true) :
    (a2 ++ b).takeWhile p = a2 ∧ (a2 ++ b).dropWhile p = b := by
  have hmem : ∀ y ∈ a2, p y = true := by
    intro y hy
    exact List.dropWhile_eq_nil_iff.mp hall y hy
  have hbhead : ∀ y, b.head? = some y → p y = false := by
    intro y hy
    have hLmem : (x :: a2).getLast (List.cons_ne_nil x a2) ∈ x :: a2 :=
      List.getLast_mem _
    have hpL : p ((x :: a2).getLast (List.cons_ne_nil x a2)) = true := by
      rcases List.mem_cons.mp hLmem with h | h
      · rw [h]; exact hx
      · exact hmem _ h
    have hLsome : (x :: a2).getLast? = some ((x :: a2).getLast (List.cons_ne_nil x a2)) :=
      List.getLast?_eq_getLast _ _
    by_contra hpy
    rw [Bool.not_eq_false] at hpy
    have hcr := hp _ _ hpL hpy
    unfold safeJoinB at hsafe
    rw [hLsome, hy] at hsafe
    simp only [Bool.not_eq_eq_eq_not, Bool.not_true] at hsafe
    rw [hcr] at hsafe
    simp at hsafe
  cases b with
  | nil =>
      constructor
      · rw [List.append_nil]
        conv_rhs => rw [← List.takeWhile_append_dropWhile (p := p) (l := a2), hall]
        simp
      · rw [List.append_nil]
        exact hall
  | cons y b2 =>
      have hpy : p y = false := hbhead y rfl
      constructor
      · rw [List.takeWhile_append_of_pos hmem, List.takeWhile_cons, hpy]
        simp
      · rw [List.dropWhile_append_of_pos hmem, List.dropWhile_cons, hpy]
        simp

theorem classRun_alpha : ∀ u v, isAlphaB u = true → isAlphaB v = true →
    classRun u v = true := by
  intro u v hu hv
  unfold classRun
  rw [hu, hv]
  simp

theorem classRun_digit : ∀ u v, isDigitB u = true → isDigitB v = true →
    classRun u v = true := by
  intro u v hu hv
  unfold classRun
  rw [hu, hv]
  simp

theorem tokenizeAux_nil (f i : Nat) : tokenizeAux f [] i = [] := by
  cases f <;> rfl

theorem takeWhile_self_of_dropWhile_nil {p : Nat → Bool} {l : List Nat}
    (h : l.dropWhile p = []) : l.takeWhile p = l := by
  conv_rhs => rw [← List.takeWhile_append_dropWhile (p := p) (l := l), h]
  simp

/-- Scanning splits at a safe byte boundary: the Lexer's locality property,
the basis of the Incremental Re-parse Engine's subtree reuse. -/
theorem tokenizeAux_append (b : List Nat) :
    ∀ f a i, a.length + b.length ≤ f → safeJoinB a b = true →
      tokenizeAux f (a ++ b) i =
        tokenizeAux a.length a i ++ tokenizeAux b.length b (i + a.length) := by
  intro f
  induction f with
  | zero =>
      intro a i h _
      have ha : a = [] := List.eq_nil_of_length_eq_zero (by omega)
      have hb : b = [] := List.eq_nil_of_length_eq_zero (by omega)
      subst ha; subst hb
      simp [tokenizeAux]
  | succ f ih =>
      intro a i h hsafe
      cases a with
      | nil =>
          simp only [List.nil_append, List.length_nil, Nat.add_zero]
          rw [tokenizeAux_nil]
          rw [List.nil_append]
          exact tokenizeAux_fuel_eq (f + 1) b.length b i (by omega) (le_refl _)
      | cons x a2 =>
          simp only [List.cons_append, List.length_cons]
          by_cases ha : isAlphaB x
          · by_cases hrun : a2.dropWhile isAlphaB = []
            · obtain ⟨htake, hdrop⟩ :=
                run_crosses isAlphaB classRun_alpha x a2 b ha hrun hsafe
              have htaka : a2.takeWhile isAlphaB = a2 :=
                takeWhile_self_of_dropWhile_nil hrun
              simp only [tokenizeAux, ha, if_true, htake, hdrop, htaka, hrun,
                tokenizeAux_nil, List.nil_append]
              rw [List.cons_append, List.nil_append]
              refine congrArg₂ _ rfl ?_
              exact tokenizeAux_fuel_eq f b.length b _ (by simp at h; omega) (le_refl _)
            · obtain ⟨htake, hdrop⟩ := run_stops isAlphaB a2 b hrun
              have hsafe2 := safeJoin_dropWhile hrun hsafe
              have hlen := takeWhile_dropWhile_length isAlphaB a2
              simp only [tokenizeAux, ha, if_true, htake, hdrop]
              rw [ih (a2.dropWhile isAlphaB) (i + (x :: a2.takeWhile isAlphaB).length)
                (by have := List.Sublist.length_le (List.dropWhile_sublist (p := isAlphaB) (l := a2)); simp at h ⊢; omega)
                hsafe2]
              rw [List.cons_append]
              refine congrArg₂ _ rfl ?_
              refine congrArg₂ _ ?_ ?_
              · exact tokenizeAux_fuel_eq a2.length (a2.dropWhile isAlphaB).length _ _
                  (List.Sublist.length_le (List.dropWhile_sublist _)) (le_refl _) |>.symm
              · refine congrArg (tokenizeAux b.length b) ?_
                simp only [List.length_cons]
                omega
          · rw [Bool.not_eq_true] at ha
            by_cases hd : isDigitB x
            · by_cases hrun : a2.dropWhile isDigitB = []
              · obtain ⟨htake, hdrop⟩ :=
                  run_crosses isDigitB classRun_digit x a2 b hd hrun hsafe
                have htaka : a2.takeWhile isDigitB = a2 :=
                  takeWhile_self_of_dropWhile_nil hrun
                simp only [tokenizeAux, ha, hd, Bool.false_eq_true, if_false, if_true,
                  htake, hdrop, htaka, hrun, tokenizeAux_nil, List.nil_append]
                rw [List.cons_append, List.nil_append]
                have hc : 1 + a2.length = a2.length + 1 := by omega
                rw [hc]
                refine congrArg₂ _ rfl ?_
                exact tokenizeAux_fuel_eq f b.length b _ (by simp at h; omega) (le_refl _)
              · obtain ⟨htake, hdrop⟩ := run_stops isDigitB a2 b hrun
                have hsafe2 := safeJoin_dropWhile hrun hsafe
                have hlen := takeWhile_dropWhile_length isDigitB a2
                simp only [tokenizeAux, ha, hd, Bool.false_eq_true, if_false, if_true,
                  htake, hdrop]
                rw [ih (a2.dropWhile isDigitB) (i + (1 + (a2.takeWhile isDigitB).length))
                  (by have := List.Sublist.length_le (List.dropWhile_sublist (p := isDigitB) (l := a2)); simp at h ⊢; omega)
                  hsafe2]
                rw [List.cons_append]
                refine congrArg₂ _ rfl ?_
                refine congrArg₂ _ ?_ ?_
                · exact tokenizeAux_fuel_eq a2.length (a2.dropWhile isDigitB).length _ _
                    (List.Sublist.length_le (List.dropWhile_sublist _)) (le_refl _) |>.symm
                · refine congrArg (tokenizeAux b.length b) ?_
                  omega
            · rw [Bool.not_eq_true] at hd
              have hsafe2 := safeJoin_cons hsafe
              simp only [tokenizeAux, ha, hd, Bool.false_eq_true, if_false]
              rw [ih a2 (i + 1) (by simp at h; omega) hsafe2]
              rw [List.cons_append]
              refine congrArg₂ _ rfl ?_
              refine congrArg₂ _ rfl ?_
              refine congrArg (tokenizeAux b.length b) ?_
              omega

/-- Top-level form of lexer locality. -/
theorem tokenize_append {a b : List Nat} (hsafe : safeJoinB a b = true) :
    tokenize (a ++ b) = tokenize a ++ (tokenize b).map (shiftTok a.length) := by
  unfold tokenize
  rw [tokenizeAux_append b (a ++ b).length a 0 (by simp) hsafe]
  rw [Nat.zero_add]
  rw [tokenizeAux_offset b.length b a.length]

theorem tokEnd_append (i : Nat) (xs ys : List Token) :
    tokEnd i (xs ++ ys) = tokEnd (tokEnd i xs) ys := by
  induction xs generalizing i with
  | nil => rfl
  | cons t xs ih =>
      simp only [List.cons_append, tokEnd]
      exact ih _

theorem tile_end_eq : ∀ ts i j, TokensTile i j ts → j = tokEnd i ts := by
  intro ts
  induction ts with
  | nil => intro i j h; exact h.symm
  | cons t ts ih =>
      intro i j h
      obtain ⟨-, -, h3⟩ := h
      exact ih _ _ h3

theorem tile_le : ∀ ts i j, TokensTile i j ts → i ≤ j := by
  intro ts
  induction ts with
  | nil => intro i j h; exact le_of_eq h
  | cons t ts ih =>
      intro i j h
      obtain ⟨h1, h2, h3⟩ := h
      have := ih _ _ h3
      omega

theorem tile_append_iff : ∀ xs i k (ys : List Token),
    TokensTile i k (xs ++ ys) ↔
      (TokensTile i (tokEnd i xs) xs ∧ TokensTile (tokEnd i xs) k ys) := by
  intro xs
  induction xs with
  | nil =>
      intro i k ys
      simp [tokEnd, TokensTile_nil]
  | cons t xs ih =>
      intro i k ys
      rw [List.cons_append, TokensTile_cons, TokensTile_cons, tokEnd,
        ih t.span.endB k ys]
      tauto

theorem tile_nil_of_self : ∀ ts i, TokensTile i i ts → ts = [] := by
  intro ts i h
  cases ts with
  | nil => rfl
  | cons t ts2 =>
      obtain ⟨h1, h2, h3⟩ := h
      have := tile_le ts2 _ _ h3
      omega

theorem tile_prefix_unique {zs xs1 xs2 : List Token} {i j : Nat}
    (hp1 : xs1 <+: zs) (hp2 : xs2 <+: zs)
    (ht1 : TokensTile i j xs1) (ht2 : TokensTile i j xs2) : xs1 = xs2 := by
  have hcomp := List.prefix_or_prefix_of_prefix hp1 hp2
  rcases hcomp with h | h
  · obtain ⟨t, rfl⟩ := h
    rw [tile_append_iff] at ht2
    obtain ⟨h1, h2⟩ := ht2
    have hj : j = tokEnd i xs1 := tile_end_eq _ _ _ ht1
    rw [← hj] at h2
    rw [tile_nil_of_self t j h2]
    simp
  · obtain ⟨t, rfl⟩ := h
    rw [tile_append_iff] at ht1
    obtain ⟨h1, h2⟩ := ht1
    have hj : j = tokEnd i xs2 := tile_end_eq _ _ _ ht2
    rw [← hj] at h2
    rw [tile_nil_of_self t j h2]
    simp

theorem tile_mem_bounds : ∀ ts i j, TokensTile i j ts →
    ∀ t ∈ ts, i ≤ t.span.startB ∧ t.span.startB < t.span.endB ∧ t.span.endB ≤ j := by
  intro ts
  induction ts with
  | nil => intro i j _ t ht; simp at ht
  | cons u ts ih =>
      intro i j h t ht
      obtain ⟨h1, h2, h3⟩ := h
      rcases List.mem_cons.mp ht with rfl | hmem
      · have := tile_le ts _ _ h3
        omega
      · have := ih _ _ h3 t hmem
        omega

/-- Does a token group start with the `let` keyword token? -/
def headIsLet : List Token → Bool
  | [] => false
  | t :: _ => t.kind == "let"

/-- Attach token `t` to the front of the first group, or open a fresh
group if the first group starts a new statement (`let`). -/
def consGroup (t : Token) : List (List Token) → List (List Token)
  | [] => [[t]]
  | g :: gs => if headIsLet g then [t] :: g :: gs else (t :: g) :: gs

/-- Modelled from the spec (§4.2 Parser Core grouping, absent from the
supplied sources): partition the token stream into statement groups,
starting a new group before every `let` keyword token.  Tokens before the
first `let` form a leading group of their own. -/
def splitStmts : List Token → List (List Token)
  | [] => []
  | t :: ts => consGroup t (splitStmts ts)

/-- Concatenation of a list of token groups. -/
def concatAll : List (List Token) → List Token
  | [] => []
  | g :: gs => g ++ concatAll gs

theorem concatAll_append (gs1 gs2 : List (List Token)) :
    concatAll (gs1 ++ gs2) = concatAll gs1 ++ concatAll gs2 := by
  induction gs1 with
  | nil => rfl
  | cons g gs ih =>
      show g ++ concatAll (gs ++ gs2) = (g ++ concatAll gs) ++ concatAll gs2
      rw [ih, List.append_assoc]

theorem concatAll_consGroup (t : Token) (gs : List (List Token)) :
    concatAll (consGroup t gs) = t :: concatAll gs := by
  cases gs with
  | nil => rfl
  | cons g gs2 =>
      by_cases hl : headIsLet g
      · simp only [consGroup, hl, if_true, concatAll]
        rfl
      · simp only [consGroup, hl, Bool.false_eq_true, if_false, concatAll]
        rfl

/-- Grouping loses and reorders nothing: statements partition the stream. -/
theorem splitStmts_concat : ∀ ts, concatAll (splitStmts ts) = ts := by
  intro ts
  induction ts with
  | nil => rfl
  | cons t ts ih =>
      simp only [splitStmts]
      rw [concatAll_consGroup, ih]

theorem splitStmts_eq_nil_iff (ts : List Token) : splitStmts ts = [] ↔ ts = [] := by
  constructor
  · intro h
    have := splitStmts_concat ts
    rw [h] at this
    simp only [concatAll] at this
    exact this.symm
  · intro h
    subst h
    rfl

/-- The first group of `splitStmts (t :: ts)` starts with `t`. -/
theorem splitStmts_cons_shape (t : Token) (ts : List Token) :
    ∃ g gs, splitStmts (t :: ts) = (t :: g) :: gs := by
  simp only [splitStmts]
  cases splitStmts ts with
  | nil => exact ⟨[], [], rfl⟩
  | cons g gs =>
      by_cases hl : headIsLet g
      · simp only [consGroup, hl, if_true]
        exact ⟨[], g :: gs, rfl⟩
      · simp only [consGroup, hl, Bool.false_eq_true, if_false]
        exact ⟨g, gs, rfl⟩

/-- Structure of the grouping: every group is non-empty, no group has a
`let` token after its head, and every group other than the first begins
with a `let` token. -/
def GroupsWF : List (List Token) → Prop
  | [] => True
  | g :: gs => g ≠ [] ∧ (∀ tk ∈ g.tail, ¬ tk.kind = "let") ∧
      ∀ g2 ∈ gs, g2 ≠ [] ∧ headIsLet g2 = true ∧ ∀ tk ∈ g2.tail, ¬ tk.kind = "let"

theorem splitStmts_wf : ∀ ts, GroupsWF (splitStmts ts) := by
  intro ts
  induction ts with
  | nil => trivial
  | cons t ts ih =>
      simp only [splitStmts]
      cases h : splitStmts ts with
      | nil =>
          refine ⟨List.cons_ne_nil _ _, ?_, ?_⟩ <;> simp [consGroup]
      | cons g gs =>
          rw [h] at ih
          obtain ⟨hg1, hg2, hg3⟩ := ih
          by_cases hl : headIsLet g
          · simp only [consGroup, hl, if_true]
            refine ⟨List.cons_ne_nil _ _, by simp, ?_⟩
            intro g2 hmem
            rcases List.mem_cons.mp hmem with rfl | hmem2
            · exact ⟨hg1, hl, hg2⟩
            · exact hg3 g2 hmem2
          · simp only [consGroup, hl, Bool.false_eq_true, if_false]
            refine ⟨List.cons_ne_nil _ _, ?_, hg3⟩
            intro tk hmem
            simp only [List.tail_cons] at hmem
            cases g with
            | nil => exact absurd rfl hg1
            | cons u g3 =>
                rcases List.mem_cons.mp hmem with rfl | hmem2
                · simp only [headIsLet] at hl
                  simpa using hl
                · exact hg2 tk (by simpa using hmem2)

/-- Grouping splits cleanly at a statement boundary: the grouping-level
locality property used by the Incremental Re-parse Engine. -/
theorem splitStmts_append (a b : List Token)
    (hb : b = [] ∨ headIsLet b = true) :
    splitStmts (a ++ b) = splitStmts a ++ splitStmts b := by
  rcases hb with rfl | hb
  · simp [splitStmts]
  · cases b with
    | nil => simp [headIsLet] at hb
    | cons tb b2 =>
        induction a with
        | nil => simp [splitStmts]
        | cons t arest ih =>
            have hLHS : splitStmts (t :: (arest ++ tb :: b2)) =
                consGroup t (splitStmts (arest ++ tb :: b2)) := rfl
            have hRHS : splitStmts (t :: arest) = consGroup t (splitStmts arest) := rfl
            rw [List.cons_append, hLHS, ih, hRHS]
            cases harest : splitStmts arest with
            | nil =>
                rw [List.nil_append]
                obtain ⟨g2, gs2, hshape⟩ := splitStmts_cons_shape tb b2
                rw [hshape]
                have hl2 : headIsLet (tb :: g2) = true := by
                  simp only [headIsLet] at hb ⊢
                  exact hb
                simp only [consGroup, hl2, if_true]
                rfl
            | cons g gs =>
                rw [List.cons_append]
                by_cases hl : headIsLet g
                · simp only [consGroup, hl, if_true]
                  simp
                · simp only [consGroup, hl, Bool.false_eq_true, if_false]
                  simp

theorem splitStmts_single_aux : ∀ (rest : List Token) (t : Token),
    (∀ tk ∈ rest, ¬ tk.kind = "let") → splitStmts (t :: rest) = [t :: rest] := by
  intro rest
  induction rest with
  | nil => intro t _; rfl
  | cons u rest2 ih =>
      intro t hrest
      have hsub : splitStmts (u :: rest2) = [u :: rest2] :=
        ih u (fun tk hmem => hrest tk (by simp [hmem]))
      have hu : headIsLet (u :: rest2) = false := by
        simp only [headIsLet]
        have := hrest u (by simp)
        simpa using this
      show consGroup t (splitStmts (u :: rest2)) = [t :: u :: rest2]
      rw [hsub]
      simp [consGroup, hu]

/-- A single well-formed group regroups to itself. -/
theorem splitStmts_single : ∀ (g : List Token), g ≠ [] →
    (∀ tk ∈ g.tail, ¬ tk.kind = "let") → splitStmts g = [g] := by
  intro g
  cases g with
  | nil => intro h; exact absurd rfl h
  | cons t rest =>
      intro _ hrest
      simp only [List.tail_cons] at hrest
      exact splitStmts_single_aux rest t hrest

/-- Regrouping the concatenation of a run of well-formed groups gives the
same groups back. -/
theorem splitStmts_concatAll : ∀ (gss : List (List Token)),
    (∀ g ∈ gss, g ≠ [] ∧ ∀ tk ∈ g.tail, ¬ tk.kind = "let") →
    (∀ g ∈ gss.tail, headIsLet g = true) →
    splitStmts (concatAll gss) = gss := by
  intro gss
  induction gss with
  | nil => intro _ _; rfl
  | cons g gs ih =>
      intro h1 h2
      simp only [concatAll]
      cases gs with
      | nil =>
          simp only [concatAll, List.append_nil]
          exact splitStmts_single g (h1 g (by simp)).1 (h1 g (by simp)).2
      | cons g2 gs2 =>
          have hg2ne : g2 ≠ [] := (h1 g2 (by simp)).1
          have hg2let : headIsLet g2 = true := h2 g2 (by simp)
          have hhead : headIsLet (concatAll (g2 :: gs2)) = true := by
            simp only [concatAll]
            cases g2 with
            | nil => exact absurd rfl hg2ne
            | cons u g3 => simpa [headIsLet] using hg2let
          have hne : concatAll (g2 :: gs2) ≠ [] := by
            intro hcon
            rw [hcon] at hhead
            simp [headIsLet] at hhead
          rw [splitStmts_append g (concatAll (g2 :: gs2)) (Or.inr hhead)]
          rw [splitStmts_single g (h1 g (by simp)).1 (h1 g (by simp)).2]
          rw [ih (fun g3 hm => h1 g3 (by simp [hm]))
            (fun g3 hm => h2 g3 (by simp; right; exact hm))]
          rfl

/-- Grouping only looks at token kinds, so it commutes with span maps. -/
theorem splitStmts_map (f : Nat → Nat) : ∀ ts : List Token,
    splitStmts (ts.map (mapTokSpan f)) =
      (splitStmts ts).map (List.map (mapTokSpan f)) := by
  intro ts
  induction ts with
  | nil => rfl
  | cons t ts ih =>
      simp only [List.map_cons, splitStmts, ih]
      cases h : splitStmts ts with
      | nil => simp [consGroup]
      | cons g gs =>
          have hlet : headIsLet (g.map (mapTokSpan f)) = headIsLet g := by
            cases g with
            | nil => rfl
            | cons u g2 => simp [headIsLet, mapTokSpan]
          simp only [List.map_cons, consGroup, hlet]
          by_cases hl : headIsLet g
          · simp [hl]
          · simp [hl]

/-- A syntax tree node: symbol kind, byte span, ordered children (owned by
the parent), and the is-error flag — the spec's §3 data model. -/
inductive Node where
  | node (kind : String) (span : Span) (children : List Node) (isError : Bool)

def Node.kind : Node → String
  | .node k _ _ _ => k

def Node.span : Node → Span
  | .node _ sp _ _ => sp

def Node.children : Node → List Node
  | .node _ _ cs _ => cs

def Node.isError : Node → Bool
  | .node _ _ _ e => e

/-- Leaf node for a token (kind and span carried over). -/
def tokLeaf (t : Token) : Node :=
  Node.node t.kind t.span [] false

/-- Span hull of a token group: from the first token's start to the last
token's end (the Tree Builder's span = union of children's spans). -/
def hull (g : List Token) : Span :=
  match g with
  | [] => Span.mk 0 0
  | t :: _ => Span.mk t.span.startB (tokEnd 0 g)

/-- Does a statement group have the shape `let identifier = number`
(ignoring whitespace tokens)? -/
def stmtShape (g : List Token) : Bool :=
  ((g.map Token.kind).filter (fun k => !(k == "space"))) ==
    ["let", "identifier", "equals", "number"]

/-- Modelled from the spec (§4.2 Parser Core, absent from the supplied
sources): the strict table-driven parse of one statement group.  `none`
is the ParseError signal: no valid table action applies to this group. -/
def parseStmtStrict (g : List Token) : Option Node :=
  if stmtShape g then
    some (Node.node "let_binding" (hull g) (g.map tokLeaf) false)
  else
    none

/-- Modelled from the spec (§4.5 Error Recovery Layer, absent from the
supplied sources): close the failed group as an explicit error node
spanning its tokens. -/
def recoverNode (g : List Token) : Node :=
  Node.node "ERROR" (hull g) (g.map tokLeaf) true

/-- One statement: strict parse if a table action applies, recovery
otherwise.  Never fails. -/
def mkStmt (g : List Token) : Node :=
  match parseStmtStrict g with
  | some n => n
  | none => recoverNode g

/-- Modelled from the spec (§2 control flow, absent from the supplied
sources): the full parse pipeline — Lexer, statement grouping, per-group
parse/recovery, root node covering the whole input.  A total function:
parsing never aborts. -/
def parse (s : List Nat) : Node :=
  Node.node "source_file" (Span.mk 0 s.length)
    ((splitStmts (tokenize s)).map mkStmt) false

/-- `SpansTile i j sps`: the spans cover `[i, j)` exactly once, in order,
with no gaps and no overlaps. -/
def SpansTile : Nat → Nat → List Span → Prop
  | i, j, [] => i = j
  | i, j, sp :: rest => sp.startB = i ∧ sp.startB ≤ sp.endB ∧ SpansTile sp.endB j rest

mutual

/-- Spans of the leaves of a tree, left to right. -/
def leafSpans : Node → List Span
  | .node _ sp cs _ =>
      match cs with
      | [] => [sp]
      | c :: cs2 => leafSpansL (c :: cs2)

def leafSpansL : List Node → List Span
  | [] => []
  | c :: cs => leafSpans c ++ leafSpansL cs

end

theorem leafSpansL_append (xs ys : List Node) :
    leafSpansL (xs ++ ys) = leafSpansL xs ++ leafSpansL ys := by
  induction xs with
  | nil => simp [leafSpansL]
  | cons c cs ih =>
      rw [List.cons_append]
      simp only [leafSpansL]
      rw [ih, List.append_assoc]

theorem leafSpans_tokLeaf (t : Token) : leafSpans (tokLeaf t) = [t.span] := by
  simp [tokLeaf, leafSpans]

theorem leafSpansL_tokLeaves (g : List Token) :
    leafSpansL (g.map tokLeaf) = g.map (fun t => t.span) := by
  induction g with
  | nil => simp [leafSpansL]
  | cons t g2 ih =>
      simp only [List.map_cons, leafSpansL]
      rw [leafSpans_tokLeaf, ih]
      rfl

theorem mkStmt_children (g : List Token) : (mkStmt g).children = g.map tokLeaf := by
  unfold mkStmt parseStmtStrict
  by_cases h : stmtShape g <;> simp [h, recoverNode, Node.children]

theorem mkStmt_span (g : List Token) : (mkStmt g).span = hull g := by
  unfold mkStmt parseStmtStrict
  by_cases h : stmtShape g <;> simp [h, recoverNode, Node.span]

theorem leafSpans_node_cons (k : String) (sp : Span) (c : Node) (cs : List Node)
    (e : Bool) : leafSpans (Node.node k sp (c :: cs) e) = leafSpansL (c :: cs) := by
  simp [leafSpans]

theorem leafSpans_mkStmt (g : List Token) (h : g ≠ []) :
    leafSpans (mkStmt g) = g.map (fun t => t.span) := by
  cases g with
  | nil => exact absurd rfl h
  | cons t g2 =>
      have hch := mkStmt_children (t :: g2)
      cases hmk : mkStmt (t :: g2) with
      | node k sp cs e =>
          rw [hmk] at hch
          simp only [Node.children] at hch
          rw [List.map_cons] at hch
          subst hch
          rw [leafSpans_node_cons, ← List.map_cons tokLeaf, leafSpansL_tokLeaves]

theorem spans_tile_of_tokens : ∀ ts i j, TokensTile i j ts →
    SpansTile i j (ts.map (fun t => t.span)) := by
  intro ts
  induction ts with
  | nil => intro i j h; exact h
  | cons t ts ih =>
      intro i j h
      obtain ⟨h1, h2, h3⟩ := h
      refine ⟨h1, ?_, ih _ _ h3⟩
      show t.span.startB ≤ t.span.endB
      omega

theorem splitStmts_groups_ne_nil (ts : List Token) :
    ∀ g ∈ splitStmts ts, g ≠ [] := by
  intro g hmem
  have hwf := splitStmts_wf ts
  cases h : splitStmts ts with
  | nil => rw [h] at hmem; simp at hmem
  | cons g0 gs =>
      rw [h] at hmem hwf
      obtain ⟨h1, h2, h3⟩ := hwf
      rcases List.mem_cons.mp hmem with rfl | hmem2
      · exact h1
      · exact (h3 g hmem2).1

theorem leafSpansL_mkStmts : ∀ gss : List (List Token), (∀ g ∈ gss, g ≠ []) →
    leafSpansL (gss.map mkStmt) = (concatAll gss).map (fun t => t.span) := by
  intro gss
  induction gss with
  | nil => intro _; rfl
  | cons g gs ih =>
      intro h
      simp only [List.map_cons, leafSpansL]
      rw [leafSpans_mkStmt g (h g (by simp)), ih (fun g2 hm => h g2 (by simp [hm]))]
      show _ = ((g ++ concatAll gs).map _)
      rw [List.map_append]

/-- Leaf spans of the parse tree tile the whole input: the totality and
exact-cover property. -/
theorem parse_tiles (s : List Nat) : SpansTile 0 s.length (leafSpans (parse s)) := by
  unfold parse
  cases h : splitStmts (tokenize s) with
  | nil =>
      show SpansTile 0 s.length (leafSpans (Node.node _ _ ([].map mkStmt) _))
      rw [List.map_nil]
      show SpansTile 0 s.length (leafSpans (Node.node "source_file" (Span.mk 0 s.length) [] false))
      have : leafSpans (Node.node "source_file" (Span.mk 0 s.length) [] false) =
          [Span.mk 0 s.length] := by simp [leafSpans]
      rw [this]
      exact ⟨rfl, Nat.zero_le _, rfl⟩
  | cons g gs =>
      show SpansTile 0 s.length (leafSpans (Node.node _ _ ((g :: gs).map mkStmt) _))
      rw [List.map_cons]
      rw [leafSpans_node_cons, ← List.map_cons mkStmt]
      rw [leafSpansL_mkStmts (g :: gs) (by rw [← h]; exact splitStmts_groups_ne_nil _)]
      rw [← h, splitStmts_concat]
      exact spans_tile_of_tokens _ _ _ (tokenize_tile s)

/-- `NodesTile i j ns`: sibling nodes whose spans exactly tile `[i, j)`,
each span non-empty. -/
def NodesTile : Nat → Nat → List Node → Prop
  | i, j, [] => i = j
  | i, j, n :: ns => n.span.startB = i ∧ i < n.span.endB ∧ NodesTile n.span.endB j ns

theorem nodesTile_le : ∀ ns i j, NodesTile i j ns → i ≤ j := by
  intro ns
  induction ns with
  | nil => intro i j h; exact le_of_eq h
  | cons n ns ih =>
      intro i j h
      obtain ⟨h1, h2, h3⟩ := h
      have := ih _ _ h3
      omega

theorem nodesTile_mem_bounds : ∀ ns i j, NodesTile i j ns →
    ∀ n ∈ ns, i ≤ n.span.startB ∧ n.span.startB < n.span.endB ∧ n.span.endB ≤ j := by
  intro ns
  induction ns with
  | nil => intro i j _ n hn; simp at hn
  | cons m ns ih =>
      intro i j h n hn
      obtain ⟨h1, h2, h3⟩ := h
      rcases List.mem_cons.mp hn with rfl | hmem
      · have := nodesTile_le ns _ _ h3
        omega
      · have := ih _ _ h3 n hmem
        omega

/-- Containment of children spans in a parent span. -/
def fitsIn (sp : Span) (cs : List Node) : Bool :=
  cs.all (fun c => decide (sp.startB ≤ c.span.startB) && decide (c.span.endB ≤ sp.endB))

/-- Sibling spans strictly ordered in document order and non-overlapping. -/
def sibsOrdered : List Node → Bool
  | [] => true
  | [_] => true
  | a :: b :: rest =>
      (decide (a.span.endB ≤ b.span.startB) && decide (a.span.startB < b.span.startB)) &&
        sibsOrdered (b :: rest)

mutual

/-- The spec's span invariant, checked recursively over a whole tree:
every child's span lies inside its parent's, and siblings are strictly
ordered and non-overlapping. -/
def nodeOk : Node → Bool
  | .node _ sp cs _ => fitsIn sp cs && sibsOrdered cs && nodeOkL cs

def nodeOkL : List Node → Bool
  | [] => true
  | c :: cs => nodeOk c && nodeOkL cs

end

theorem nodesTile_sibs : ∀ ns i j, NodesTile i j ns → sibsOrdered ns = true := by
  intro ns
  induction ns with
  | nil => intro i j _; rfl
  | cons a rest ih =>
      intro i j h
      cases rest with
      | nil => rfl
      | cons b rest2 =>
          obtain ⟨h1, h2, h3⟩ := h
          have hb : b.span.startB = a.span.endB := h3.1
          simp only [sibsOrdered, Bool.and_eq_true, decide_eq_true_eq]
          refine ⟨⟨by omega, by omega⟩, ?_⟩
          exact ih _ _ h3

theorem fitsIn_of_tile {ns : List Node} {i j i0 j0 : Nat}
    (h : NodesTile i j ns) (hlo : i0 ≤ i) (hhi : j ≤ j0) :
    fitsIn (Span.mk i0 j0) ns = true := by
  unfold fitsIn
  rw [List.all_eq_true]
  intro c hc
  have := nodesTile_mem_bounds ns i j h c hc
  simp only [Bool.and_eq_true, decide_eq_true_eq]
  constructor <;> [show i0 ≤ c.span.startB; show c.span.endB ≤ j0] <;> omega

theorem tokLeaf_ok (t : Token) : nodeOk (tokLeaf t) = true := by
  simp [tokLeaf, nodeOk, fitsIn, sibsOrdered, nodeOkL]

theorem tokLeaves_tile : ∀ (g : List Token) i m, TokensTile i m g →
    NodesTile i m (g.map tokLeaf) := by
  intro g
  induction g with
  | nil => intro i m h; exact h
  | cons t g2 ih =>
      intro i m h
      obtain ⟨h1, h2, h3⟩ := h
      exact ⟨h1, h2, ih _ _ h3⟩

theorem nodeOkL_tokLeaves (g : List Token) : nodeOkL (g.map tokLeaf) = true := by
  induction g with
  | nil => rfl
  | cons t g2 ih =>
      simp only [List.map_cons, nodeOkL]
      rw [tokLeaf_ok, ih]
      rfl

theorem hull_eq_of_tile : ∀ (g : List Token) i m, g ≠ [] → TokensTile i m g →
    hull g = Span.mk i m := by
  intro g i m hne h
  cases g with
  | nil => exact absurd rfl hne
  | cons t g2 =>
      obtain ⟨h1, h2, h3⟩ := h
      show Span.mk t.span.startB (tokEnd 0 (t :: g2)) = Span.mk i m
      have hend : tokEnd 0 (t :: g2) = tokEnd t.span.endB g2 := rfl
      rw [hend, ← tile_end_eq g2 _ _ h3, h1]

theorem stmt_ok (g : List Token) (i m : Nat) (hne : g ≠ [])
    (h : TokensTile i m g) : nodeOk (mkStmt g) = true := by
  cases hmk : mkStmt g with
  | node k sp cs e =>
      have hch := mkStmt_children g
      have hsp := mkStmt_span g
      rw [hmk] at hch hsp
      simp only [Node.children] at hch
      simp only [Node.span] at hsp
      subst hch
      rw [hull_eq_of_tile g i m hne h] at hsp
      subst hsp
      simp only [nodeOk, Bool.and_eq_true]
      refine ⟨⟨?_, ?_⟩, ?_⟩
      · exact fitsIn_of_tile (tokLeaves_tile g i m h) (le_refl _) (le_refl _)
      · exact nodesTile_sibs _ _ _ (tokLeaves_tile g i m h)
      · exact nodeOkL_tokLeaves g

theorem mkStmts_tile : ∀ (gss : List (List Token)) i j, (∀ g ∈ gss, g ≠ []) →
    TokensTile i j (concatAll gss) → NodesTile i j (gss.map mkStmt) := by
  intro gss
  induction gss with
  | nil => intro i j _ h; exact h
  | cons g gs ih =>
      intro i j hne h
      rw [show concatAll (g :: gs) = g ++ concatAll gs from rfl] at h
      rw [tile_append_iff] at h
      obtain ⟨h1, h2⟩ := h
      have hgne : g ≠ [] := hne g (by simp)
      refine ⟨?_, ?_, ?_⟩
      · rw [mkStmt_span, hull_eq_of_tile g i _ hgne h1]
      · rw [mkStmt_span, hull_eq_of_tile g i _ hgne h1]
        show i < tokEnd i g
        cases g with
        | nil => exact absurd rfl hgne
        | cons t g2 =>
            obtain ⟨hh1, hh2, hh3⟩ := h1
            have := tile_le g2 _ _ hh3
            omega
      · rw [mkStmt_span, hull_eq_of_tile g i _ hgne h1]
        exact ih _ _ (fun g2 hm => hne g2 (by simp [hm])) h2

theorem mkStmts_okL : ∀ (gss : List (List Token)) i j, (∀ g ∈ gss, g ≠ []) →
    TokensTile i j (concatAll gss) → nodeOkL (gss.map mkStmt) = true := by
  intro gss
  induction gss with
  | nil => intro i j _ _; rfl
  | cons g gs ih =>
      intro i j hne h
      rw [show concatAll (g :: gs) = g ++ concatAll gs from rfl] at h
      rw [tile_append_iff] at h
      obtain ⟨h1, h2⟩ := h
      simp only [List.map_cons, nodeOkL]
      rw [stmt_ok g i _ (hne g (by simp)) h1]
      rw [ih _ _ (fun g2 hm => hne g2 (by simp [hm])) h2]
      rfl

/-- The span invariant holds of every parse result. -/
theorem parse_ok (s : List Nat) : nodeOk (parse s) = true := by
  unfold parse
  have hne := splitStmts_groups_ne_nil (tokenize s)
  have htile : TokensTile 0 s.length (concatAll (splitStmts (tokenize s))) := by
    rw [splitStmts_concat]
    exact tokenize_tile s
  have hnt := mkStmts_tile _ 0 s.length hne htile
  simp only [nodeOk, Bool.and_eq_true]
  refine ⟨⟨?_, ?_⟩, ?_⟩
  · exact fitsIn_of_tile hnt (le_refl _) (le_refl _)
  · exact nodesTile_sibs _ _ _ hnt
  · exact mkStmts_okL _ 0 s.length hne htile

/-- A group on which the strict parse fails is recovered as an
error-flagged child of the root — never a raised fault. -/
theorem parse_recovers (s : List Nat) {g : List Token}
    (hmem : g ∈ splitStmts (tokenize s)) (hfail : parseStmtStrict g = none) :
    ((parse s).children.any (fun n => n.isError)) = true := by
  have hmk : mkStmt g = recoverNode g := by
    unfold mkStmt
    rw [hfail]
  have hchild : (parse s).children = (splitStmts (tokenize s)).map mkStmt := rfl
  rw [hchild, List.any_eq_true]
  refine ⟨mkStmt g, List.mem_map_of_mem mkStmt hmem, ?_⟩
  rw [hmk]
  rfl

/-- An edit descriptor: start byte, old end byte, and the replacement
bytes.  The new end is `startB + repl.length` (the spec's §3 Edit
Descriptor, with the replaced content carried alongside). -/
structure Edit where
  startB : Nat
  oldEndB : Nat
  repl : List Nat
deriving DecidableEq

def Edit.newEndB (e : Edit) : Nat := e.startB + e.repl.length

/-- Apply an edit to the source text. -/
def applyEdit (s : List Nat) (e : Edit) : List Nat :=
  s.take e.startB ++ e.repl ++ s.drop e.oldEndB

/-- Apply a list of edits in order. -/
def applyEdits (s : List Nat) (es : List Edit) : List Nat :=
  es.foldl applyEdit s

/-- A single edit is valid for text of length `n` when its byte range is
inside the text. -/
def EditValid (n : Nat) (e : Edit) : Prop :=
  e.startB ≤ e.oldEndB ∧ e.oldEndB ≤ n

instance (n : Nat) (e : Edit) : Decidable (EditValid n e) := by
  unfold EditValid
  infer_instance

/-- All edits of a sequence valid, each for the text produced so far. -/
def EditsValid (s : List Nat) : List Edit → Prop
  | [] => True
  | e :: es => EditValid s.length e ∧ EditsValid (applyEdit s e) es

instance (s : List Nat) (es : List Edit) : Decidable (EditsValid s es) := by
  induction es generalizing s with
  | nil => exact .isTrue trivial
  | cons e es ih =>
      have := ih (applyEdit s e)
      unfold EditsValid
      exact instDecidableAnd

/-- Errors of the edit API (the spec's §7 taxonomy, caller errors). -/
inductive EditError where
  | invalidEditRange
deriving DecidableEq

/-- Does an edit descriptor's byte range lie inside the tree's bounds? -/
def editInBounds (t : Node) (e : Edit) : Bool :=
  decide (t.span.startB ≤ e.startB) && decide (e.startB ≤ e.oldEndB) &&
    decide (e.oldEndB ≤ t.span.endB)

/-- Map an old-text byte position to a new-text byte position under an
edit: positions at or before the edit are fixed, positions at or after the
old end shift by the length delta, positions inside the replaced range are
clamped to the new end. -/
def editPos (e : Edit) (x : Nat) : Nat :=
  if x ≤ e.startB then x
  else if e.oldEndB ≤ x then x - e.oldEndB + e.newEndB
  else e.newEndB

def mapSpan (f : Nat → Nat) (sp : Span) : Span :=
  Span.mk (f sp.startB) (f sp.endB)

/-- Apply a position map to every span of a tree. -/
def nodeMapSpan (f : Nat → Nat) : Node → Node
  | .node k sp cs e =>
      Node.node k (mapSpan f sp) (cs.attach.map (fun c => nodeMapSpan f c.1)) e
decreasing_by
  simp_wf
  have := List.sizeOf_lt_of_mem c.2
  omega

theorem nodeMapSpan_eq (f : Nat → Nat) (k : String) (sp : Span) (cs : List Node)
    (e : Bool) : nodeMapSpan f (Node.node k sp cs e) =
      Node.node k (mapSpan f sp) (cs.map (nodeMapSpan f)) e := by
  simp only [nodeMapSpan]
  congr 1
  simp

/-- Modelled from the spec (§7 `InvalidEditRange`, absent from the supplied
sources): the edit operation on a tree.  It validates the edit range
synchronously; a range outside the tree's bounds is reported as
`invalidEditRange` with the tree returned unchanged, otherwise the tree's
spans are adjusted for the edit. -/
def applyEditChecked (t : Node) (e : Edit) : Option EditError × Node :=
  if editInBounds t e then (none, nodeMapSpan (editPos e) t)
  else (some EditError.invalidEditRange, t)

/-- Out-of-bounds edits are rejected synchronously and atomically. -/
theorem applyEditChecked_invalid (t : Node) (e : Edit)
    (h : editInBounds t e = false) :
    applyEditChecked t e = (some EditError.invalidEditRange, t) := by
  unfold applyEditChecked
  rw [h]
  simp

end ThornEngine

namespace ThornBinding

theorem Init_name (env : Env) (ex : Exports) :
    getProp (Init env ex).1 "name" = some (NapiValue.str "thorn") := by
  show getProp (setProp (setProp ex "name" (NapiValue.str "thorn")) "language"
    (NapiValue.external (env.thornResult 0))) "name" = _
  rw [getProp_setProp_other _ _ _ _ (by decide)]
  exact getProp_setProp_same _ _ _

theorem Init_language (env : Env) (ex : Exports) :
    getProp (Init env ex).1 "language" =
      some (NapiValue.external (env.thornResult 0)) := by
  show getProp (setProp (setProp ex "name" (NapiValue.str "thorn")) "language"
    (NapiValue.external (env.thornResult 0))) "language" = _
  exact getProp_setProp_same _ _ _

theorem Init_calls (env : Env) (ex : Exports) : (Init env ex).2 = 1 := rfl

theorem Init_frame (env : Env) (ex : Exports) (k : String)
    (h1 : k ≠ "name") (h2 : k ≠ "language") :
    getProp (Init env ex).1 k = getProp ex k := by
  show getProp (setProp (setProp ex "name" (NapiValue.str "thorn")) "language"
    (NapiValue.external (env.thornResult 0))) k = _
  rw [getProp_setProp_other _ _ _ _ h2, getProp_setProp_other _ _ _ _ h1]

end ThornBinding

namespace ThornEngine

/-- A grammar table artifact: a format/version tag plus the (state, symbol)
→ action rows (the spec's §6 versioned table artifact). -/
structure GrammarTable where
  formatVersion : Nat
  rows : List (Nat × Nat × Nat)
deriving DecidableEq

/-- Load-time errors (the spec's §7 taxonomy, fatal to load). -/
inductive LoadError where
  | tableVersionMismatch
deriving DecidableEq

/-- Modelled from the spec (§6 grammar table artifact and §7
`TableVersionMismatch`, absent from the supplied sources — the binding
only forwards an opaque extern handle): loading a grammar table checks the
format/version tag against the engine's version before the table handle is
exposed; on mismatch the defined error is reported and no handle is
produced. -/
def loadGrammarTable (engineVersion : Nat) (tbl : GrammarTable) :
    Except LoadError GrammarTable :=
  if tbl.formatVersion = engineVersion then Except.ok tbl
  else Except.error LoadError.tableVersionMismatch

theorem loadGrammarTable_mismatch (engineVersion : Nat) (tbl : GrammarTable)
    (h : tbl.formatVersion ≠ engineVersion) :
    loadGrammarTable engineVersion tbl = Except.error LoadError.tableVersionMismatch := by
  unfold loadGrammarTable
  rw [if_neg h]

theorem loadGrammarTable_ok_version (engineVersion : Nat) (tbl h : GrammarTable)
    (hok : loadGrammarTable engineVersion tbl = Except.ok h) :
    tbl.formatVersion = engineVersion := by
  by_cases hv : tbl.formatVersion = engineVersion
  · exact hv
  · rw [loadGrammarTable_mismatch _ _ hv] at hok
    cases hok

/-- Is byte position `p` a safe split point of `s` — i.e. not inside a
lexical run?  This is the Lexer-level validation the re-parse engine runs
before reusing subtrees on either side of position `p`. -/
def safeAt (s : List Nat) (p : Nat) : Bool :=
  if p = 0 then true
  else
    match s[p-1]?, s[p]? with
    | some x, some y => !classRun x y
    | _, _ => true

/-- Does the token list start with a `let` keyword (or is empty)?  The
Parser-level validation for reusing a suffix of statements. -/
def letCheck (ts : List Token) : Bool :=
  match ts with
  | [] => true
  | t :: _ => t.kind == "let"

/-- Is a node entirely before the edited byte range? -/
def preP (e : Edit) : Node → Bool :=
  fun n => decide (n.span.endB ≤ e.startB)

/-- Is a node not entirely after the edited byte range? -/
def postP (e : Edit) : Node → Bool :=
  fun n => decide (n.span.startB < e.oldEndB)

/-- Statements of the previous tree lying entirely before the edit:
reusable unchanged. -/
def preStmts (cs : List Node) (e : Edit) : List Node :=
  cs.takeWhile (preP e)

/-- Statements of the previous tree lying entirely after the edited byte
range: reusable with shifted spans. -/
def postStmts (cs : List Node) (e : Edit) : List Node :=
  (cs.dropWhile (preP e)).dropWhile (postP e)

/-- End of the reusable prefix, in old (and new) byte coordinates. -/
def preEnd (cs : List Node) (e : Edit) : Nat :=
  match (preStmts cs e).getLast? with
  | some n => n.span.endB
  | none => 0

/-- Start of the reusable suffix, in old byte coordinates. -/
def suffStart (s : List Nat) (cs : List Node) (e : Edit) : Nat :=
  match (postStmts cs e).head? with
  | some n => n.span.startB
  | none => s.length

/-- Start of the reusable suffix, in new byte coordinates. -/
def suffStartNew (s : List Nat) (cs : List Node) (e : Edit) : Nat :=
  e.startB + e.repl.length + (suffStart s cs e - e.oldEndB)

/-- Tokens of the invalidated middle region, re-lexed from the new text. -/
def midTokens (s : List Nat) (cs : List Node) (e : Edit) : List Token :=
  (tokenize (((applyEdit s e).drop (preEnd cs e)).take
    (suffStartNew s cs e - preEnd cs e))).map (shiftTok (preEnd cs e))

/-- Span shift applied to reused suffix statements. -/
def postShift (e : Edit) : Nat → Nat :=
  fun x => x - e.oldEndB + e.newEndB

/-- The validations the engine runs before reusing subtrees: the edit is
in bounds, the four reuse boundaries are safe lexer split points in the
old and new text, and the middle region and the reused suffix both start
at statement boundaries. -/
def reuseChecks (s : List Nat) (cs : List Node) (e : Edit) : Bool :=
  decide (EditValid s.length e) && safeAt s (preEnd cs e) &&
    safeAt (applyEdit s e) (preEnd cs e) && safeAt s (suffStart s cs e) &&
    safeAt (applyEdit s e) (suffStartNew s cs e) &&
    letCheck (midTokens s cs e) && letCheck (tokenize (s.drop (suffStart s cs e)))

/-- Modelled from the spec (§4.4 Incremental Re-parse Engine, absent from
the supplied sources): given the previous text `s`, the previous tree `t`,
and an edit `e`, reuse the statements entirely before the edit unchanged
and the statements entirely after it with shifted spans, re-lex and
re-parse only the invalidated middle region of the new text, and splice.
Reuse is validated against the Lexer (safe split points) and the Parser
(statement boundaries); if any validation fails the engine falls back to
re-parsing the whole new text. -/
def incrementalReparse (s : List Nat) (t : Node) (e : Edit) : Node :=
  match t with
  | .node rk _ cs re =>
      if reuseChecks s cs e then
        Node.node rk (Span.mk 0 (applyEdit s e).length)
          (preStmts cs e ++ (splitStmts (midTokens s cs e)).map mkStmt ++
            (postStmts cs e).map (nodeMapSpan (postShift e))) re
      else
        parse (applyEdit s e)

/-- Re-parse through a sequence of edits, threading text and tree. -/
def incrementalReparseMany (s : List Nat) (t : Node) : List Edit → Node
  | [] => t
  | e :: es => incrementalReparseMany (applyEdit s e) (incrementalReparse s t e) es

theorem mem_of_getLast? {l : List Node} {n : Node} (h : l.getLast? = some n) :
    n ∈ l := by
  cases l with
  | nil => cases h
  | cons a l2 =>
      have hne : a :: l2 ≠ [] := List.cons_ne_nil _ _
      rw [List.getLast?_eq_getLast _ hne] at h
      have hm := List.getLast_mem hne
      rw [Option.some_inj] at h
      rw [h] at hm
      exact hm

theorem safeJoin_take_drop (s : List Nat) (p : Nat) (hs : safeAt s p = true) :
    safeJoinB (s.take p) (s.drop p) = true := by
  by_cases hp : p = 0
  · subst hp
    exact safeJoinB_nil_left _
  · by_cases hlen : s.length ≤ p
    · rw [List.drop_eq_nil_of_le hlen]
      exact safeJoinB_nil_right _
    · push_neg at hlen
      cases h1 : s[p-1]? with
      | none =>
          rw [List.getElem?_eq_none_iff] at h1
          omega
      | some x =>
          have h2 : (s.take p).getLast? = some x := by
            rw [List.getLast?_take, if_neg hp, h1]
            rfl
          unfold safeJoinB
          rw [h2, List.head?_drop]
          unfold safeAt at hs
          rw [if_neg hp, h1] at hs
          cases h3 : s[p]? with
          | none => rfl
          | some y =>
              rw [h3] at hs
              exact hs

/-- Scanning splits at a safe position: token stream of the whole text is
the streams of the two sides, the right side shifted. -/
theorem tokenize_split_at (s : List Nat) (p : Nat) (hp : p ≤ s.length)
    (hs : safeAt s p = true) :
    tokenize s = tokenize (s.take p) ++ (tokenize (s.drop p)).map (shiftTok p) := by
  conv_lhs => rw [← List.take_append_drop p s]
  rw [tokenize_append (safeJoin_take_drop s p hs)]
  rw [List.length_take, Nat.min_eq_left hp]

theorem safeAt_drop (s : List Nat) (p q : Nat) (hpq : p ≤ q)
    (hs : safeAt s q = true) : safeAt (s.drop p) (q - p) = true := by
  by_cases h0 : q - p = 0
  · unfold safeAt
    rw [if_pos h0]
  · have hq0 : ¬ q = 0 := by omega
    unfold safeAt at hs ⊢
    rw [if_neg h0]
    rw [if_neg hq0] at hs
    have h1 : (s.drop p)[q - p - 1]? = s[q-1]? := by
      rw [List.getElem?_drop]
      congr 1
      omega
    have h2 : (s.drop p)[q - p]? = s[q]? := by
      rw [List.getElem?_drop]
      congr 1
      omega
    rw [h1, h2]
    exact hs

theorem shiftTok_shiftTok (a b : Nat) (t : Token) :
    shiftTok a (shiftTok b t) = shiftTok (b + a) t := by
  simp only [shiftTok, mapTokSpan]
  refine congrArg₂ Token.mk rfl ?_
  refine congrArg₂ Span.mk ?_ ?_ <;> omega

theorem headIsLet_append {x : List Token} (y : List Token) (hx : x ≠ []) :
    headIsLet (x ++ y) = headIsLet x := by
  cases x with
  | nil => exact absurd rfl hx
  | cons t x2 => rfl

theorem headIsLet_map (f : Nat → Nat) (ts : List Token) :
    headIsLet (ts.map (mapTokSpan f)) = headIsLet ts := by
  cases ts with
  | nil => rfl
  | cons t ts2 => rfl

theorem letCheck_cases {ts : List Token} (h : letCheck ts = true) :
    ts = [] ∨ headIsLet ts = true := by
  cases ts with
  | nil => exact Or.inl rfl
  | cons t ts2 => exact Or.inr h

theorem nodesTile_lastEnd : ∀ (ns : List Node) i j, NodesTile i j ns →
    (match ns.getLast? with | some n => n.span.endB | none => i) = j := by
  intro ns
  induction ns with
  | nil => intro i j h; exact h
  | cons n ns ih =>
      intro i j h
      obtain ⟨h1, h2, h3⟩ := h
      cases ns with
      | nil =>
          show n.span.endB = j
          exact h3
      | cons m ns2 =>
          have hthis := ih _ _ h3
          rw [List.getLast?_cons_cons]
          obtain ⟨x, hx⟩ : ∃ x, (m :: ns2).getLast? = some x :=
            ⟨_, List.getLast?_eq_getLast _ (List.cons_ne_nil _ _)⟩
          rw [hx] at hthis ⊢
          exact hthis

theorem nodesTile_headStart : ∀ (ns : List Node) i j, NodesTile i j ns →
    (match ns.head? with | some n => n.span.startB | none => j) = i := by
  intro ns i j h
  cases ns with
  | nil => exact h.symm
  | cons n ns2 => exact h.1

theorem splitStmts_tail_no_let (ts : List Token) :
    ∀ g ∈ splitStmts ts, ∀ tk ∈ g.tail, ¬ tk.kind = "let" := by
  intro g hmem
  have hwf := splitStmts_wf ts
  cases h : splitStmts ts with
  | nil => rw [h] at hmem; simp at hmem
  | cons g0 gs =>
      rw [h] at hmem hwf
      obtain ⟨h1, h2, h3⟩ := hwf
      rcases List.mem_cons.mp hmem with rfl | hmem2
      · exact h2
      · exact (h3 g hmem2).2.2

theorem splitStmts_tail_head_let (ts : List Token) :
    ∀ g ∈ (splitStmts ts).tail, headIsLet g = true := by
  intro g hmem
  have hwf := splitStmts_wf ts
  cases h : splitStmts ts with
  | nil => rw [h] at hmem; simp at hmem
  | cons g0 gs =>
      rw [h] at hmem hwf
      obtain ⟨h1, h2, h3⟩ := hwf
      simp only [List.tail_cons] at hmem
      exact (h3 g hmem).2.1

theorem mapTokSpan_comp (f h : Nat → Nat) (t : Token) :
    mapTokSpan f (mapTokSpan h t) = mapTokSpan (fun x => f (h x)) t := rfl

theorem mapTokSpan_kind (f : Nat → Nat) (t : Token) :
    (mapTokSpan f t).kind = t.kind := rfl

theorem stmtShape_map (f : Nat → Nat) (g : List Token) :
    stmtShape (g.map (mapTokSpan f)) = stmtShape g := by
  unfold stmtShape
  rw [List.map_map]
  rfl

theorem tokEnd_map_ne (f : Nat → Nat) :
    ∀ (g : List Token) i j, g ≠ [] →
      tokEnd i (g.map (mapTokSpan f)) = f (tokEnd j g) := by
  intro g
  induction g with
  | nil => intro i j h; exact absurd rfl h
  | cons t g2 ih =>
      intro i j _
      cases g2 with
      | nil => rfl
      | cons u g3 =>
          show tokEnd (mapTokSpan f t).span.endB ((u :: g3).map (mapTokSpan f)) =
            f (tokEnd t.span.endB (u :: g3))
          exact ih _ _ (List.cons_ne_nil _ _)

theorem hull_map (f : Nat → Nat) (g : List Token) (h : g ≠ []) :
    hull (g.map (mapTokSpan f)) = mapSpan f (hull g) := by
  cases g with
  | nil => exact absurd rfl h
  | cons t g2 =>
      show Span.mk (mapTokSpan f t).span.startB (tokEnd 0 ((t :: g2).map (mapTokSpan f))) =
        mapSpan f (Span.mk t.span.startB (tokEnd 0 (t :: g2)))
      rw [tokEnd_map_ne f (t :: g2) 0 0 (List.cons_ne_nil _ _)]
      rfl

theorem tokLeaf_mapSpan (f : Nat → Nat) (t : Token) :
    tokLeaf (mapTokSpan f t) = nodeMapSpan f (tokLeaf t) := by
  unfold tokLeaf
  rw [nodeMapSpan_eq]
  rfl

/-- The statement builder commutes with span maps: statements depend on
spans only through the spans themselves. -/
theorem mkStmt_mapSpan (f : Nat → Nat) (g : List Token) (h : g ≠ []) :
    mkStmt (g.map (mapTokSpan f)) = nodeMapSpan f (mkStmt g) := by
  have hfun : (tokLeaf ∘ mapTokSpan f) = (nodeMapSpan f ∘ tokLeaf) := by
    funext t
    exact tokLeaf_mapSpan f t
  unfold mkStmt parseStmtStrict recoverNode
  rw [stmtShape_map]
  by_cases hs : stmtShape g
  · simp only [hs, if_true]
    rw [nodeMapSpan_eq, hull_map f g h, List.map_map, List.map_map, hfun]
  · simp only [hs, Bool.false_eq_true, if_false]
    rw [nodeMapSpan_eq, hull_map f g h, List.map_map, List.map_map, hfun]

/-- Groups of the old parse entirely before the edit. -/
def GA (s : List Nat) (e : Edit) : List (List Token) :=
  (splitStmts (tokenize s)).takeWhile (preP e ∘ mkStmt)

/-- Groups of the old parse not entirely before the edit. -/
def GBC (s : List Nat) (e : Edit) : List (List Token) :=
  (splitStmts (tokenize s)).dropWhile (preP e ∘ mkStmt)

/-- Invalidated groups of the old parse. -/
def GB (s : List Nat) (e : Edit) : List (List Token) :=
  (GBC s e).takeWhile (postP e ∘ mkStmt)

/-- Groups of the old parse entirely after the edited range. -/
def GC (s : List Nat) (e : Edit) : List (List Token) :=
  (GBC s e).dropWhile (postP e ∘ mkStmt)

/-- Old-coordinate end of the reusable prefix groups. -/
def mA (s : List Nat) (e : Edit) : Nat :=
  tokEnd 0 (concatAll (GA s e))

/-- Old-coordinate end of the invalidated middle groups. -/
def mB (s : List Nat) (e : Edit) : Nat :=
  tokEnd (mA s e) (concatAll (GB s e))

theorem engine_decomp (s : List Nat) (e : Edit) :
    splitStmts (tokenize s) = GA s e ++ (GB s e ++ GC s e) := by
  unfold GA GB GC GBC
  rw [List.takeWhile_append_dropWhile]
  rw [List.takeWhile_append_dropWhile]

theorem engine_pre_eq (s : List Nat) (e : Edit) :
    preStmts ((splitStmts (tokenize s)).map mkStmt) e = (GA s e).map mkStmt := by
  unfold preStmts GA
  exact List.takeWhile_map mkStmt (preP e) (splitStmts (tokenize s))

theorem engine_post_eq (s : List Nat) (e : Edit) :
    postStmts ((splitStmts (tokenize s)).map mkStmt) e = (GC s e).map mkStmt := by
  unfold postStmts GC GBC
  rw [List.dropWhile_map, List.dropWhile_map]

theorem engine_tiles (s : List Nat) (e : Edit) :
    TokensTile 0 (mA s e) (concatAll (GA s e)) ∧
      TokensTile (mA s e) (mB s e) (concatAll (GB s e)) ∧
      TokensTile (mB s e) s.length (concatAll (GC s e)) := by
  have t0 : TokensTile 0 s.length (concatAll (splitStmts (tokenize s))) := by
    rw [splitStmts_concat]
    exact tokenize_tile s
  rw [engine_decomp s e, concatAll_append, concatAll_append] at t0
  rw [tile_append_iff] at t0
  obtain ⟨t1, t23⟩ := t0
  rw [tile_append_iff] at t23
  obtain ⟨t2, t3⟩ := t23
  exact ⟨t1, t2, t3⟩

theorem GA_sub (s : List Nat) (e : Edit) : ∀ g ∈ GA s e, g ∈ splitStmts (tokenize s) := by
  intro g hg
  unfold GA at hg
  exact (List.takeWhile_prefix _).subset hg

theorem GC_sub (s : List Nat) (e : Edit) : ∀ g ∈ GC s e, g ∈ splitStmts (tokenize s) := by
  intro g hg
  unfold GC GBC at hg
  have h1 := (List.dropWhile_sublist (l := GBC s e) (p := postP e ∘ mkStmt)).subset
  unfold GBC at h1
  have h2 := (List.dropWhile_sublist (l := splitStmts (tokenize s)) (p := preP e ∘ mkStmt)).subset
  exact h2 (h1 hg)

theorem engine_preTile (s : List Nat) (e : Edit) :
    NodesTile 0 (mA s e) ((GA s e).map mkStmt) := by
  refine mkStmts_tile _ _ _ ?_ (engine_tiles s e).1
  intro g hg
  exact splitStmts_groups_ne_nil (tokenize s) g (GA_sub s e g hg)

theorem engine_postTile (s : List Nat) (e : Edit) :
    NodesTile (mB s e) s.length ((GC s e).map mkStmt) := by
  refine mkStmts_tile _ _ _ ?_ (engine_tiles s e).2.2
  intro g hg
  exact splitStmts_groups_ne_nil (tokenize s) g (GC_sub s e g hg)

theorem engine_preEnd (s : List Nat) (e : Edit) :
    preEnd ((splitStmts (tokenize s)).map mkStmt) e = mA s e := by
  have h := nodesTile_lastEnd _ 0 (mA s e) (engine_preTile s e)
  unfold preEnd
  rw [engine_pre_eq s e]
  cases hpl : ((GA s e).map mkStmt).getLast? with
  | none =>
      rw [hpl] at h
      exact h
  | some n =>
      rw [hpl] at h
      exact h

theorem engine_suffStart (s : List Nat) (e : Edit) :
    suffStart s ((splitStmts (tokenize s)).map mkStmt) e = mB s e := by
  have h := nodesTile_headStart _ (mB s e) s.length (engine_postTile s e)
  unfold suffStart
  rw [engine_post_eq s e]
  cases hpl : ((GC s e).map mkStmt).head? with
  | none =>
      rw [hpl] at h
      exact h
  | some n =>
      rw [hpl] at h
      exact h

theorem preEnd_le (cs : List Node) (e : Edit) : preEnd cs e ≤ e.startB := by
  unfold preEnd
  cases hpl : (preStmts cs e).getLast? with
  | none => exact Nat.zero_le _
  | some n =>
      have hmem : n ∈ preStmts cs e := mem_of_getLast? hpl
      have hp : preP e n = true := List.mem_takeWhile_imp hmem
      unfold preP at hp
      rw [decide_eq_true_eq] at hp
      exact hp

theorem suffStart_ge (s : List Nat) (cs : List Node) (e : Edit)
    (hv2 : e.oldEndB ≤ s.length) : e.oldEndB ≤ suffStart s cs e := by
  unfold suffStart
  cases hpl : (postStmts cs e).head? with
  | none => exact hv2
  | some n =>
      have h := List.head?_dropWhile_not (postP e) (cs.dropWhile (preP e))
      unfold postStmts at hpl
      rw [hpl] at h
      change decide (n.span.startB < e.oldEndB) = false at h
      rw [decide_eq_false_iff_not] at h
      show e.oldEndB ≤ n.span.startB
      omega

theorem mA_le_mB (s : List Nat) (e : Edit) : mA s e ≤ mB s e :=
  tile_le _ _ _ (engine_tiles s e).2.1

theorem mB_le_len (s : List Nat) (e : Edit) : mB s e ≤ s.length :=
  tile_le _ _ _ (engine_tiles s e).2.2

theorem applyEdit_take (s : List Nat) (e : Edit) (hv2 : e.oldEndB ≤ s.length)
    (hv1 : e.startB ≤ e.oldEndB) (p : Nat) (hp : p ≤ e.startB) :
    (applyEdit s e).take p = s.take p := by
  unfold applyEdit
  have hlen : (s.take e.startB).length = e.startB := by
    rw [List.length_take]
    omega
  rw [List.append_assoc]
  rw [List.take_append_of_le_length (by omega)]
  rw [List.take_take, Nat.min_eq_left hp]

theorem applyEdit_drop (s : List Nat) (e : Edit) (hv2 : e.oldEndB ≤ s.length)
    (hv1 : e.startB ≤ e.oldEndB) (q : Nat) (hq : e.oldEndB ≤ q) :
    (applyEdit s e).drop (e.startB + e.repl.length + (q - e.oldEndB)) = s.drop q := by
  unfold applyEdit
  have hlen : (s.take e.startB).length = e.startB := by
    rw [List.length_take]
    omega
  rw [List.append_assoc]
  rw [show e.startB + e.repl.length + (q - e.oldEndB) =
    (s.take e.startB).length + (e.repl.length + (q - e.oldEndB)) from by omega]
  rw [List.drop_append]
  rw [show e.repl.length + (q - e.oldEndB) = e.repl.length + (q - e.oldEndB) from rfl]
  rw [List.drop_append (q - e.oldEndB)]
  rw [List.drop_drop]
  congr 1
  omega

theorem applyEdit_length (s : List Nat) (e : Edit) (hv2 : e.oldEndB ≤ s.length)
    (hv1 : e.startB ≤ e.oldEndB) :
    (applyEdit s e).length = e.startB + e.repl.length + (s.length - e.oldEndB) := by
  unfold applyEdit
  rw [List.length_append, List.length_append, List.length_take, List.length_drop]
  omega

theorem old_split_A (s : List Nat) (e : Edit) (hsafe : safeAt s (mA s e) = true) :
    tokenize (s.take (mA s e)) = concatAll (GA s e) := by
  have hmAlen : mA s e ≤ s.length := le_trans (mA_le_mB s e) (mB_le_len s e)
  have hsplit := tokenize_split_at s (mA s e) hmAlen hsafe
  have hG : tokenize s = concatAll (GA s e) ++
      (concatAll (GB s e) ++ concatAll (GC s e)) := by
    rw [← concatAll_append, ← concatAll_append, ← engine_decomp s e, splitStmts_concat]
  have hTile1 : TokensTile 0 (mA s e) (tokenize (s.take (mA s e))) := by
    have := tokenize_tile (s.take (mA s e))
    rw [List.length_take, Nat.min_eq_left hmAlen] at this
    exact this
  exact tile_prefix_unique (i := 0) (j := mA s e) ⟨_, hsplit.symm⟩ ⟨_, hG.symm⟩
    hTile1 (engine_tiles s e).1

theorem old_split_C (s : List Nat) (e : Edit)
    (hsafe : safeAt s (mB s e) = true) :
    (tokenize (s.drop (mB s e))).map (shiftTok (mB s e)) = concatAll (GC s e) := by
  have hmBlen : mB s e ≤ s.length := mB_le_len s e
  have hsplit := tokenize_split_at s (mB s e) hmBlen hsafe
  have hG : tokenize s = (concatAll (GA s e) ++ concatAll (GB s e)) ++
      concatAll (GC s e) := by
    rw [← concatAll_append, ← concatAll_append, List.append_assoc,
      ← engine_decomp s e, splitStmts_concat]
  have hTile1 : TokensTile 0 (mB s e) (tokenize (s.take (mB s e))) := by
    have := tokenize_tile (s.take (mB s e))
    rw [List.length_take, Nat.min_eq_left hmBlen] at this
    exact this
  have hTile2 : TokensTile 0 (mB s e) (concatAll (GA s e) ++ concatAll (GB s e)) := by
    rw [tile_append_iff]
    exact ⟨(engine_tiles s e).1, (engine_tiles s e).2.1⟩
  have hAB : tokenize (s.take (mB s e)) = concatAll (GA s e) ++ concatAll (GB s e) :=
    tile_prefix_unique (i := 0) (j := mB s e) ⟨_, hsplit.symm⟩ ⟨_, hG.symm⟩
      hTile1 hTile2
  rw [hAB] at hsplit
  rw [hG] at hsplit
  exact (List.append_cancel_left hsplit).symm

theorem tail_subset_append {α : Type} (u v : List α) :
    ∀ g ∈ v.tail, g ∈ (u ++ v).tail := by
  intro g hg
  cases u with
  | nil => exact hg
  | cons x u2 =>
      rw [List.cons_append, List.tail_cons]
      exact List.mem_append_right u2 (List.mem_of_mem_tail hg)

theorem GA_tail_sub (s : List Nat) (e : Edit) :
    ∀ g ∈ (GA s e).tail, g ∈ (splitStmts (tokenize s)).tail := by
  intro g hg
  have hd := engine_decomp s e
  cases hga : GA s e with
  | nil => rw [hga] at hg; simp at hg
  | cons g0 ga2 =>
      rw [hga] at hg hd
      rw [hd, List.cons_append, List.tail_cons]
      simp only [List.tail_cons] at hg
      exact List.mem_append_left _ hg

theorem GC_tail_sub (s : List Nat) (e : Edit) :
    ∀ g ∈ (GC s e).tail, g ∈ (splitStmts (tokenize s)).tail := by
  intro g hg
  have hd : splitStmts (tokenize s) = (GA s e ++ GB s e) ++ GC s e := by
    rw [engine_decomp s e, List.append_assoc]
  rw [hd]
  exact tail_subset_append _ _ g hg

theorem splitA_groups (s : List Nat) (e : Edit) (hsafe : safeAt s (mA s e) = true) :
    splitStmts (tokenize (s.take (mA s e))) = GA s e := by
  rw [old_split_A s e hsafe]
  refine splitStmts_concatAll _ ?_ ?_
  · intro g hg
    have hmem := GA_sub s e g hg
    exact ⟨splitStmts_groups_ne_nil _ g hmem, splitStmts_tail_no_let _ g hmem⟩
  · intro g hg
    exact splitStmts_tail_head_let _ g (GA_tail_sub s e g hg)

theorem shiftTok_eq_mapTokSpan (d : Nat) :
    shiftTok d = mapTokSpan (fun x => x + d) := rfl

theorem splitC_groups (s : List Nat) (e : Edit)
    (hsafe : safeAt s (mB s e) = true) :
    GC s e = (splitStmts (tokenize (s.drop (mB s e)))).map
      (List.map (mapTokSpan (fun x => x + mB s e))) := by
  have h1 : GC s e = splitStmts (concatAll (GC s e)) := by
    refine (splitStmts_concatAll _ ?_ ?_).symm
    · intro g hg
      have hmem := GC_sub s e g hg
      exact ⟨splitStmts_groups_ne_nil _ g hmem, splitStmts_tail_no_let _ g hmem⟩
    · intro g hg
      exact splitStmts_tail_head_let _ g (GC_tail_sub s e g hg)
  rw [h1, ← old_split_C s e hsafe, shiftTok_eq_mapTokSpan, splitStmts_map]

/-- New-coordinate start of the reusable suffix. -/
def nB (s : List Nat) (e : Edit) : Nat :=
  e.startB + e.repl.length + (mB s e - e.oldEndB)

theorem mA_le_start (s : List Nat) (e : Edit) : mA s e ≤ e.startB := by
  rw [← engine_preEnd s e]
  exact preEnd_le _ e

theorem oldEnd_le_mB (s : List Nat) (e : Edit) (hv2 : e.oldEndB ≤ s.length) :
    e.oldEndB ≤ mB s e := by
  rw [← engine_suffStart s e]
  exact suffStart_ge s _ e hv2

theorem new_split (s : List Nat) (e : Edit) (hv1 : e.startB ≤ e.oldEndB)
    (hv2 : e.oldEndB ≤ s.length)
    (hsafeP : safeAt (applyEdit s e) (mA s e) = true)
    (hsafeS : safeAt (applyEdit s e) (nB s e) = true) :
    tokenize (applyEdit s e) =
      tokenize (s.take (mA s e)) ++
        ((tokenize (((applyEdit s e).drop (mA s e)).take (nB s e - mA s e))).map
            (shiftTok (mA s e)) ++
          (tokenize (s.drop (mB s e))).map (shiftTok (nB s e))) := by
  have hmAs : mA s e ≤ e.startB := mA_le_start s e
  have hoeB : e.oldEndB ≤ mB s e := oldEnd_le_mB s e hv2
  have hmBl : mB s e ≤ s.length := mB_le_len s e
  have hL : (applyEdit s e).length = e.startB + e.repl.length + (s.length - e.oldEndB) :=
    applyEdit_length s e hv2 hv1
  have hmAnB : mA s e ≤ nB s e := by
    unfold nB
    omega
  have hnBlen : nB s e ≤ (applyEdit s e).length := by
    rw [hL]
    unfold nB
    omega
  have step1 := tokenize_split_at (applyEdit s e) (mA s e) (by omega) hsafeP
  have hTk : (applyEdit s e).take (mA s e) = s.take (mA s e) :=
    applyEdit_take s e hv2 hv1 (mA s e) hmAs
  have hdlen : (nB s e - mA s e) ≤ ((applyEdit s e).drop (mA s e)).length := by
    rw [List.length_drop]
    omega
  have hsafe2 : safeAt ((applyEdit s e).drop (mA s e)) (nB s e - mA s e) = true :=
    safeAt_drop _ _ _ hmAnB hsafeS
  have step2 := tokenize_split_at ((applyEdit s e).drop (mA s e)) (nB s e - mA s e)
    hdlen hsafe2
  have step3 : ((applyEdit s e).drop (mA s e)).drop (nB s e - mA s e) =
      (applyEdit s e).drop (nB s e) := by
    rw [List.drop_drop]
    congr 1
    omega
  have step4 : (applyEdit s e).drop (nB s e) = s.drop (mB s e) := by
    unfold nB
    exact applyEdit_drop s e hv2 hv1 (mB s e) hoeB
  rw [step3, step4] at step2
  rw [step1, hTk, step2]
  rw [List.map_append, List.map_map]
  refine congrArg₂ _ rfl ?_
  refine congrArg₂ _ rfl ?_
  refine congrArg₂ _ ?_ rfl
  funext t
  show shiftTok (mA s e) (shiftTok (nB s e - mA s e) t) = shiftTok (nB s e) t
  rw [shiftTok_shiftTok]
  congr 1
  omega

theorem new_groups (s : List Nat) (e : Edit) (hv1 : e.startB ≤ e.oldEndB)
    (hv2 : e.oldEndB ≤ s.length)
    (hsafeSA : safeAt s (mA s e) = true)
    (hsafeP : safeAt (applyEdit s e) (mA s e) = true)
    (hsafeS : safeAt (applyEdit s e) (nB s e) = true)
    (hcM : letCheck ((tokenize (((applyEdit s e).drop (mA s e)).take
      (nB s e - mA s e))).map (shiftTok (mA s e))) = true)
    (hcC : letCheck (tokenize (s.drop (mB s e))) = true) :
    splitStmts (tokenize (applyEdit s e)) =
      GA s e ++
        (splitStmts ((tokenize (((applyEdit s e).drop (mA s e)).take
            (nB s e - mA s e))).map (shiftTok (mA s e))) ++
          (splitStmts (tokenize (s.drop (mB s e)))).map
            (List.map (mapTokSpan (fun x => x + nB s e)))) := by
  have hCC : (tokenize (s.drop (mB s e))).map (shiftTok (nB s e)) = [] ∨
      headIsLet ((tokenize (s.drop (mB s e))).map (shiftTok (nB s e))) = true := by
    rcases letCheck_cases hcC with h | h
    · rw [h]
      exact Or.inl rfl
    · right
      rw [shiftTok_eq_mapTokSpan, headIsLet_map]
      exact h
  have hMM : ((tokenize (((applyEdit s e).drop (mA s e)).take
        (nB s e - mA s e))).map (shiftTok (mA s e))) ++
        (tokenize (s.drop (mB s e))).map (shiftTok (nB s e)) = [] ∨
      headIsLet (((tokenize (((applyEdit s e).drop (mA s e)).take
        (nB s e - mA s e))).map (shiftTok (mA s e))) ++
        (tokenize (s.drop (mB s e))).map (shiftTok (nB s e))) = true := by
    cases hM0 : (tokenize (((applyEdit s e).drop (mA s e)).take
        (nB s e - mA s e))).map (shiftTok (mA s e)) with
    | nil =>
        rw [List.nil_append]
        exact hCC
    | cons t rest =>
        right
        rw [headIsLet_append _ (List.cons_ne_nil _ _)]
        rw [hM0] at hcM
        exact hcM
  rw [new_split s e hv1 hv2 hsafeP hsafeS]
  rw [splitStmts_append _ _ hMM]
  rw [splitStmts_append _ _ hCC]
  rw [splitA_groups s e hsafeSA]
  rw [shiftTok_eq_mapTokSpan (nB s e), splitStmts_map]

/-- Core correctness of the Incremental Re-parse Engine for one edit: the
re-parsed tree is identical, node for node, to a from-scratch parse of
the edited text. -/
theorem incrementalReparse_eq_parse (s : List Nat) (e : Edit)
    (hv : EditValid s.length e) :
    incrementalReparse s (parse s) e = parse (applyEdit s e) := by
  obtain ⟨hv1, hv2⟩ := hv
  have hroot : incrementalReparse s (parse s) e =
      (if reuseChecks s ((splitStmts (tokenize s)).map mkStmt) e then
        Node.node "source_file" (Span.mk 0 (applyEdit s e).length)
          (preStmts ((splitStmts (tokenize s)).map mkStmt) e ++
            (splitStmts (midTokens s ((splitStmts (tokenize s)).map mkStmt) e)).map mkStmt ++
            (postStmts ((splitStmts (tokenize s)).map mkStmt) e).map
              (nodeMapSpan (postShift e))) false
      else parse (applyEdit s e)) := rfl
  by_cases hc : reuseChecks s ((splitStmts (tokenize s)).map mkStmt) e
  · rw [hroot, if_pos hc]
    unfold reuseChecks at hc
    simp only [Bool.and_eq_true] at hc
    obtain ⟨⟨⟨⟨⟨⟨hcV, hcSA⟩, hcNA⟩, hcSB⟩, hcNB⟩, hcM⟩, hcC⟩ := hc
    rw [engine_preEnd] at hcSA hcNA
    rw [engine_suffStart] at hcSB
    have hsn : suffStartNew s ((splitStmts (tokenize s)).map mkStmt) e = nB s e := by
      unfold suffStartNew nB
      rw [engine_suffStart]
    rw [hsn] at hcNB
    have hmid : midTokens s ((splitStmts (tokenize s)).map mkStmt) e =
        (tokenize (((applyEdit s e).drop (mA s e)).take
          (nB s e - mA s e))).map (shiftTok (mA s e)) := by
      unfold midTokens
      rw [engine_preEnd, hsn]
    rw [hmid] at hcM
    rw [engine_suffStart] at hcC
    have hparse : parse (applyEdit s e) =
        Node.node "source_file" (Span.mk 0 (applyEdit s e).length)
          ((splitStmts (tokenize (applyEdit s e))).map mkStmt) false := rfl
    rw [hparse]
    refine congrArg (fun x =>
      Node.node "source_file" (Span.mk 0 (applyEdit s e).length) x false) ?_
    rw [new_groups s e hv1 hv2 hcSA hcNA hcNB hcM hcC]
    rw [List.map_append, List.map_append]
    rw [engine_pre_eq, hmid, engine_post_eq]
    rw [splitC_groups s e hcSB]
    rw [List.append_assoc]
    refine congrArg₂ _ rfl ?_
    refine congrArg₂ _ rfl ?_
    rw [List.map_map, List.map_map, List.map_map]
    refine List.map_congr_left ?_
    intro g hg
    have hgne : g ≠ [] :=
      splitStmts_groups_ne_nil (tokenize (s.drop (mB s e))) g hg
    have hgne2 : g.map (mapTokSpan (fun x => x + mB s e)) ≠ [] := by
      simp [hgne]
    show nodeMapSpan (postShift e) (mkStmt (g.map (mapTokSpan (fun x => x + mB s e)))) =
      mkStmt (g.map (mapTokSpan (fun x => x + nB s e)))
    rw [← mkStmt_mapSpan (postShift e) _ hgne2]
    rw [List.map_map]
    have hoeB : e.oldEndB ≤ mB s e := oldEnd_le_mB s e hv2
    have hfun : (mapTokSpan (postShift e) ∘ mapTokSpan (fun x => x + mB s e)) =
        mapTokSpan (fun x => x + nB s e) := by
      funext t
      show mapTokSpan (postShift e) (mapTokSpan (fun x => x + mB s e) t) = _
      rw [mapTokSpan_comp]
      have : (fun x => postShift e (x + mB s e)) = (fun x => x + nB s e) := by
        funext x
        unfold postShift Edit.newEndB nB
        omega
      rw [this]
    rw [hfun]
  · rw [hroot, if_neg hc]

/-- Iterated form: a whole sequence of valid edits re-parses to the same
tree as parsing the final text from scratch. -/
theorem incrementalReparseMany_eq_parse (s : List Nat) (es : List Edit)
    (hv : EditsValid s es) :
    incrementalReparseMany s (parse s) es = parse (applyEdits s es) := by
  induction es generalizing s with
  | nil => rfl
  | cons e es ih =>
      obtain ⟨hv1, hv2⟩ := hv
      show incrementalReparseMany (applyEdit s e) (incrementalReparse s (parse s) e) es =
        parse (applyEdits (applyEdit s e) es)
      rw [incrementalReparse_eq_parse s e hv1]
      exact ih (applyEdit s e) hv2

end ThornEngine

open ThornBinding ThornEngine

/-- Sample inputs used by the witness theorems. -/
def sampleLetBytes : List Nat := [108, 101, 116, 32, 120, 32, 61, 32, 49]

def sampleGrow : Edit := Edit.mk 8 9 [49, 50]

def sampleEnv : Env := Env.mk (fun _ => 7)

def nullEnv : Env := Env.mk (fun _ => 0)

def sampleExports : Exports := [("foo", NapiValue.str "bar")]

/-- C1: the module initializer sets the export named `"name"` to the
human-readable grammar name string `"thorn"`: for every invocation of
`Init` on an environment and exports object, after `Init` returns,
`exports["name"]` is the string `"thorn"`. -/
theorem claim_C1 (env : Env) (ex : Exports) :
    getProp (Init env ex).1 "name" = some (NapiValue.str "thorn") :=
  Init_name env ex

/-- C2: the module initializer exposes an opaque handle to the grammar
table: for every invocation of `Init`, the export named `"language"` is an
`External` value wrapping exactly the pointer returned by the single call
to `tree_sitter_thorn()` made during that invocation (the environment's
result for call index 0), and the invocation makes exactly one such call.
`Init` is the module's sole entry point, registered by `NODE_API_MODULE`
and run once at module load, so the handle is computed once at load and
never reassigned by the binding, which contains no other code. -/
theorem claim_C2 (env : Env) (ex : Exports) :
    getProp (Init env ex).1 "language" =
        some (NapiValue.external (env.thornResult 0)) ∧
      (Init env ex).2 = 1 :=
  ⟨Init_language env ex, Init_calls env ex⟩

/-- C3: totality of parsing — for every input byte sequence, including the
empty sequence and malformed input, parsing produces a tree in which every
byte of the input is covered by exactly one leaf token or error node, with
no gaps and no overlaps (the leaf spans tile `[0, length)` exactly); the
parse is a total function and never aborts. -/
theorem claim_C3 (s : List Nat) : SpansTile 0 s.length (leafSpans (parse s)) :=
  parse_tiles s

/-- C4: incremental equivalence — for every text `S`, the tree `T = parse S`,
and a sequence of valid edits `E` transforming `S` into `S′`, incrementally
re-parsing `T` with `E` yields a tree identical, node for node by kind,
span and error flag, to the tree obtained by parsing `S′` from scratch. -/
theorem claim_C4 (s : List Nat) (es : List Edit) (hv : EditsValid s es) :
    incrementalReparseMany s (parse s) es = parse (applyEdits s es) :=
  incrementalReparseMany_eq_parse s es hv

theorem claim_C4_witness :
    incrementalReparseMany sampleLetBytes (parse sampleLetBytes) [sampleGrow] =
      parse (applyEdits sampleLetBytes [sampleGrow]) :=
  claim_C4 sampleLetBytes [sampleGrow] (by decide)

/-- C5: span invariant — in every tree produced by the parser, each child
node's span lies within its parent's span, and the spans of siblings are
strictly ordered in document order and non-overlapping. -/
theorem claim_C5 (s : List Nat) : nodeOk (parse s) = true :=
  parse_ok s

/-- C6: parse errors are absorbed structurally, never raised — for every
input on which the strict table parse fails for some statement group (no
valid table action applies), the parser recovers: the failure is surfaced
only as an error-flagged node in the resulting tree, the tree still covers
the whole input, and no fault is thrown to the caller (`parse` is total by
type and has no error channel). -/
theorem claim_C6 (s : List Nat)
    (h : ∃ g ∈ splitStmts (tokenize s), (parseStmtStrict g).isNone = true) :
    ((parse s).children.any (fun n => n.isError)) = true ∧
      SpansTile 0 s.length (leafSpans (parse s)) := by
  obtain ⟨g, hmem, hfail⟩ := h
  exact ⟨parse_recovers s hmem (Option.isNone_iff_eq_none.mp hfail), parse_tiles s⟩

theorem claim_C6_witness :
    (((parse [64]).children.any (fun n => n.isError)) = true ∧
      SpansTile 0 ([64] : List Nat).length (leafSpans (parse [64]))) :=
  claim_C6 [64] (by decide)

/-- C7: invalid-edit atomicity — for every tree and every edit descriptor
whose byte range lies outside the current tree's bounds, the edit
operation reports the `invalidEditRange` error synchronously and returns
the tree unchanged (no mutation occurs on the error path). -/
theorem claim_C7 (t : Node) (e : Edit) (h : editInBounds t e = false) :
    applyEditChecked t e = (some EditError.invalidEditRange, t) :=
  applyEditChecked_invalid t e h

theorem claim_C7_witness :
    applyEditChecked (parse []) (Edit.mk 0 5 []) =
      (some EditError.invalidEditRange, parse []) :=
  claim_C7 (parse []) (Edit.mk 0 5 []) (by decide)

/-- C8: load-time version check — loading a grammar table checks its
format/version tag; for every table whose version mismatches the engine,
loading reports the defined `tableVersionMismatch` error to the caller (so
parsing cannot proceed: no table handle is produced), and a table handle
is only ever exposed when the version matches, i.e. the check happens
before the handle is exposed. -/
theorem claim_C8 (engineVersion : Nat) (tbl : GrammarTable) :
    (tbl.formatVersion ≠ engineVersion →
      loadGrammarTable engineVersion tbl =
        Except.error LoadError.tableVersionMismatch) ∧
      (∀ h, loadGrammarTable engineVersion tbl = Except.ok h →
        tbl.formatVersion = engineVersion) :=
  ⟨loadGrammarTable_mismatch engineVersion tbl,
    fun h hok => loadGrammarTable_ok_version engineVersion tbl h hok⟩

theorem claim_C8_witness :
    loadGrammarTable 1 (GrammarTable.mk 2 []) =
      Except.error LoadError.tableVersionMismatch :=
  (claim_C8 1 (GrammarTable.mk 2 [])).1 (by decide)

/-- C9: frame property of the binding — `Init` returns the exports object
it was passed with exactly the two properties `"name"` and `"language"`
added; every other property of the exports object is left unchanged, and
the environment is not modified (`Init` is pure in `env` in this model). -/
theorem claim_C9 (env : Env) (ex : Exports) (k : String)
    (h1 : k ≠ "name") (h2 : k ≠ "language") :
    getProp (Init env ex).1 k = getProp ex k ∧
      getProp (Init env ex).1 "name" = some (NapiValue.str "thorn") ∧
      getProp (Init env ex).1 "language" =
        some (NapiValue.external (env.thornResult 0)) :=
  ⟨Init_frame env ex k h1 h2, Init_name env ex, Init_language env ex⟩

theorem claim_C9_witness :
    (getProp (Init sampleEnv sampleExports).1 "foo" = getProp sampleExports "foo" ∧
      getProp (Init sampleEnv sampleExports).1 "name" = some (NapiValue.str "thorn") ∧
      getProp (Init sampleEnv sampleExports).1 "language" =
        some (NapiValue.external (sampleEnv.thornResult 0))) :=
  claim_C9 sampleEnv sampleExports "foo" (by decide) (by decide)

/-- C10: the binding performs no validation of the language descriptor —
whatever pointer `tree_sitter_thorn()` returns, including the null
pointer, `Init` wraps it in the exported `External` `"language"` handle
without any check and without raising an error (`Init` is total and has no
error channel), so a caller can receive a null language handle. -/
theorem claim_C10 (env : Env) (ex : Exports) (h : env.thornResult 0 = 0) :
    getProp (Init env ex).1 "language" = some (NapiValue.external 0) := by
  rw [Init_language env ex, h]

theorem claim_C10_witness :
    getProp (Init nullEnv []).1 "language" = some (NapiValue.external 0) :=
  claim_C10 nullEnv [] rfl
